import Mathlib

/-!
Verification of the token templating engine of the brillnt-slide-templates
repository (token extraction, dotted-path resolution against a nested
configuration, policy-driven replacement, validation, batch processing and
the modification-time cache).

Strings are modelled as lists of characters (`Str`).  JavaScript runtime
values that can appear in a parsed-JSON configuration are modelled by
`JSValue`; numbers are modelled as integers (no claim below depends on
floating point behaviour).  Property access on such values never throws in
JavaScript (no getters or proxies can occur in parsed JSON), so the
embedded functions are total and the `try/catch` blocks of the source
become dead branches.
-/

namespace Brillnt

abbrev Str := List Char

def toChars (s : String) : Str := s.data

/-- The apostrophe character (U+0027), used in warning messages. -/
def quoteChar : Char := Char.ofNat 39

/-- The open-brace character (U+007B) of a token marker. -/
def obrace : Char := Char.ofNat 123

/-- The close-brace character (U+007D) of a token marker. -/
def cbrace : Char := Char.ofNat 125

/-- The dollar character, special in JavaScript replacement strings. -/
def dollarChar : Char := Char.ofNat 36

/-- The backtick character, special in JavaScript replacement strings. -/
def backtickChar : Char := Char.ofNat 96

/-- JavaScript values as they can occur in a parsed-JSON configuration
object (plus `undefined`, the result of a failed property access). -/
inductive JSValue where
  | undef
  | null
  | bool (b : Bool)
  | num (n : Int)
  | str (s : Str)
  | arr (elems : List JSValue)
  | obj (props : List (Str × JSValue))

open JSValue

/-- JavaScript truthiness test (`!obj`): the falsy values among the
modelled ones are `undefined`, `null`, `false`, `0` and the empty string. -/
def jsFalsy : JSValue → Bool
  | undef => true
  | null => true
  | .bool b => !b
  | num n => n == 0
  | str s => s.isEmpty
  | arr _ => false
  | obj _ => false

/-- Whether `typeof v === 'object'` holds in JavaScript (true for plain
objects, arrays and `null`). -/
def isObjTypeof : JSValue → Bool
  | obj _ => true
  | arr _ => true
  | null => true
  | _ => false

/-- `Array.isArray(v)`. -/
def isArr : JSValue → Bool
  | arr _ => true
  | _ => false

/-- The `typeof` string of a value, used in validation `found` entries. -/
def jsTypeName : JSValue → Str
  | undef => toChars "undefined"
  | null => toChars "object"
  | .bool _ => toChars "boolean"
  | num _ => toChars "number"
  | str _ => toChars "string"
  | arr _ => toChars "object"
  | obj _ => toChars "object"

/-- Property lookup on a JavaScript object literal (first binding wins,
absent keys give `undefined`). -/
def propGet : List (Str × JSValue) → Str → JSValue
  | [], _ => undef
  | (k, v) :: rest, key => if k = key then v else propGet rest key

/-- Whether `s` is the canonical decimal representation of a natural
number (a JavaScript array index). -/
def canonicalIndex (s : Str) : Option Nat :=
  if s ≠ [] ∧ s.all Char.isDigit then
    let n := s.foldl (fun acc c => 10 * acc + (c.toNat - 48)) 0
    if (Nat.repr n).data = s then some n else none
  else none

/-- Property access on a JavaScript array: canonical numeric indices give
the element, `length` gives the length, everything else `undefined`. -/
def arrGet (xs : List JSValue) (key : Str) : JSValue :=
  if key = toChars "length" then num (Int.ofNat xs.length)
  else
    match canonicalIndex key with
    | some i => (xs.get? i).getD undef
    | none => undef

/-- Property access `v[key]` on a value already known to satisfy
`typeof v === 'object'` and be truthy (so: an object or an array). -/
def memberAccess (v : JSValue) (key : Str) : JSValue :=
  match v with
  | obj props => propGet props key
  | arr xs => arrGet xs key
  | _ => undef

/-- `path.split('.')` of JavaScript: splitting on every dot, keeping
empty segments (the empty string splits to one empty segment). -/
def splitOnDot : Str → List Str
  | [] => [[]]
  | c :: rest =>
    if c = '.' then [] :: splitOnDot rest
    else
      match splitOnDot rest with
      | [] => [[c]]
      | seg :: segs => (c :: seg) :: segs

/-- The `for (const part of parts)` loop of `TokenReplacer.getNestedValue`:
descend one segment at a time, returning `undefined` as soon as the current
value is `null`/`undefined` or not of object type. -/
def getLoop : JSValue → List Str → JSValue
  | cur, [] => cur
  | cur, k :: ks =>
    match cur with
    | null => undef
    | undef => undef
    | obj props => getLoop (propGet props k) ks
    | arr xs => getLoop (arrGet xs k) ks
    | _ => undef

/-- `TokenReplacer.getNestedValue(obj, path)`: guard against falsy or
non-object roots, use direct access for dot-free paths, otherwise descend
the dotted path one segment at a time. -/
def getNestedValue (o : JSValue) (path : Str) : JSValue :=
  if jsFalsy o || !(isObjTypeof o) then undef
  else if '.' ∈ path then getLoop o (splitOnDot path)
  else memberAccess o path

mutual

/-- `String(value)`; arrays render as their comma-joined elements, where
`null` and `undefined` elements render as the empty string. -/
def jsToString : JSValue → Str
  | undef => toChars "undefined"
  | null => toChars "null"
  | .bool b => if b then toChars "true" else toChars "false"
  | num n => (toString n).data
  | str s => s
  | arr xs => jsToStringElems xs
  | obj _ => toChars "[object Object]"

def jsToStringElems : List JSValue → Str
  | [] => []
  | [v] => jsToStringElem v
  | v :: w :: rest => jsToStringElem v ++ ',' :: jsToStringElems (w :: rest)

def jsToStringElem : JSValue → Str
  | undef => []
  | null => []
  | v => jsToString v

end

theorem jsToString_str (s : Str) : jsToString (str s) = s := by
  simp [jsToString]

/-- Result of `ConfigValidator.validateSingleToken`: either the resolved
value, or the reason the token counts as missing. -/
inductive SingleResult where
  | found (value : JSValue)
  | missing (reason : Str)

/-- `ConfigValidator.validateSingleToken(config, token, options)`: resolve
via `getNestedValue` and classify `undefined`, `null` and (unless
`allowEmpty`) the empty string as missing. -/
def validateSingleToken (config : JSValue) (token : Str) (allowEmpty : Bool) :
    SingleResult :=
  match getNestedValue config token with
  | undef => .missing (toChars "not found in config")
  | null => .missing (toChars "value is null")
  | str [] =>
    if allowEmpty then .found (str []) else .missing (toChars "value is empty string")
  | v => .found v

/-- Options of `ConfigValidator.validateAgainstTokens` with the source's
defaults. -/
structure ValidateOptions where
  strictMode : Bool := false
  allowEmpty : Bool := false
  warnOnUnused : Bool := false

/-- One entry of the validator's `found` list. -/
structure FoundEntry where
  token : Str
  value : JSValue
  type : Str

/-- One entry of the validator's `missing` list. -/
structure MissingEntry where
  token : Str
  reason : Str

/-- The record returned by `ConfigValidator.validateAgainstTokens`. -/
structure ValidationResult where
  valid : Bool
  errors : List Str
  warnings : List Str
  missing : List MissingEntry
  found : List FoundEntry
  unused : List Str

/-- Message `Required token 'x' is missing: reason`. -/
def msgStrictMissing (t reason : Str) : Str :=
  toChars "Required token " ++ quoteChar :: t ++ quoteChar :: toChars " is missing: " ++ reason

/-- Message `Token 'x' is missing: reason`. -/
def msgTokenMissing (t reason : Str) : Str :=
  toChars "Token " ++ quoteChar :: t ++ quoteChar :: toChars " is missing: " ++ reason

mutual

/-- Flatten a configuration into its dotted leaf paths
(`ConfigValidator.getAllConfigPaths`): plain objects are descended,
arrays and every other value are leaves.  `for..in` over an array visits
its indices, so arrays at the root also enumerate index paths. -/
def getAllConfigPaths : JSValue → Str → List Str
  | obj props, prefixPath => getAllConfigPathsProps props prefixPath
  | arr xs, prefixPath => getAllConfigPathsIdx xs 0 prefixPath
  | _, _ => []

def getAllConfigPathsProps : List (Str × JSValue) → Str → List Str
  | [], _ => []
  | (k, v) :: rest, prefixPath =>
    let currentPath := if prefixPath = [] then k else prefixPath ++ '.' :: k
    (if !(jsFalsy v) && isObjTypeof v && !(isArr v) then
      getAllConfigPaths v currentPath
    else [currentPath]) ++ getAllConfigPathsProps rest prefixPath

def getAllConfigPathsIdx : List JSValue → Nat → Str → List Str
  | [], _, _ => []
  | v :: rest, i, prefixPath =>
    let k := (Nat.repr i).data
    let currentPath := if prefixPath = [] then k else prefixPath ++ '.' :: k
    (if !(jsFalsy v) && isObjTypeof v && !(isArr v) then
      getAllConfigPaths v currentPath
    else [currentPath]) ++ getAllConfigPathsIdx rest (i + 1) prefixPath

end

/-- `ConfigValidator.findUnusedConfigValues`: the flattened config paths
that do not occur in the token list. -/
def findUnusedConfigValues (config : JSValue) (usedTokens : List Str) : List Str :=
  (getAllConfigPaths config []).filter (fun p => p ∉ usedTokens)

/-- The token loop of `ConfigValidator.validateAgainstTokens`. -/
def validateLoop (config : JSValue) (opts : ValidateOptions) :
    List Str → ValidationResult
  | [] => ⟨true, [], [], [], [], []⟩
  | t :: ts =>
    let r := validateLoop config opts ts
    match validateSingleToken config t opts.allowEmpty with
    | .found v =>
      { r with found := ⟨t, v, jsTypeName v⟩ :: r.found }
    | .missing reason =>
      if opts.strictMode then
        { r with
            missing := ⟨t, reason⟩ :: r.missing
            errors := msgStrictMissing t reason :: r.errors
            valid := false }
      else
        { r with
            missing := ⟨t, reason⟩ :: r.missing
            warnings := msgTokenMissing t reason :: r.warnings }

/-- Join a list of strings with a separator (`Array.prototype.join`). -/
def joinWith (sep : Str) : List Str → Str
  | [] => []
  | [x] => x
  | x :: y :: rest => x ++ sep ++ joinWith sep (y :: rest)

/-- `ConfigValidator.validateAgainstTokens(config, requiredTokens, options)`. -/
def validateAgainstTokens (config : JSValue) (requiredTokens : List Str)
    (opts : ValidateOptions) : ValidationResult :=
  let base := validateLoop config opts requiredTokens
  if opts.warnOnUnused then
    let unusedValues := findUnusedConfigValues config requiredTokens
    { base with
        unused := unusedValues
        warnings := base.warnings ++
          (if unusedValues ≠ [] then
            [toChars "Unused config values: " ++ joinWith (toChars ", ") unusedValues]
          else []) }
  else base

/-- JavaScript whitespace (`\s`, also trimmed by `String.prototype.trim`).
The common members are modelled; the remaining Unicode space characters
behave identically. -/
def wsChar (c : Char) : Bool :=
  c = ' ' || c = Char.ofNat 9 || c = Char.ofNat 10 || c = Char.ofNat 11 ||
  c = Char.ofNat 12 || c = Char.ofNat 13 || c = Char.ofNat 160 ||
  c = Char.ofNat 0x2028 || c = Char.ofNat 0x2029 || c = Char.ofNat 0xfeff ||
  c = Char.ofNat 0x3000

/-- `String.prototype.trim`. -/
def trimStr (s : Str) : Str :=
  ((s.dropWhile wsChar).reverse.dropWhile wsChar).reverse

/-- Leftmost scan of `/\{\{([^}]+)\}\}/g` in `TokenExtractor.extractTokens`:
at each `{{`, the greedy nonempty `}`-free run must be followed by `}}`
(then the trimmed run is a token and scanning resumes after the match);
otherwise the scan advances one character.  The fuel argument (one unit
per consumed character) keeps the recursion structural, so the function
reduces in the kernel; `extractScan` supplies sufficient fuel. -/
def extractScanF : Nat → Str → List Str
  | 0, _ => []
  | _ + 1, [] => []
  | fuel + 1, c :: rest =>
    if c = obrace then
      match rest with
      | [] => []
      | c2 :: rest2 =>
        if c2 = obrace then
          match rest2.drop (rest2.takeWhile (fun ch => ch ≠ cbrace)).length with
          | d1 :: d2 :: rest3 =>
            if (rest2.takeWhile (fun ch => ch ≠ cbrace)) ≠ [] ∧
                d1 = cbrace ∧ d2 = cbrace then
              trimStr (rest2.takeWhile (fun ch => ch ≠ cbrace)) ::
                extractScanF fuel rest3
            else extractScanF fuel rest
          | _ => extractScanF fuel rest
        else extractScanF fuel rest
    else extractScanF fuel rest

/-- The fuel is irrelevant as soon as it covers the text length. -/
theorem extractScanF_congr :
    ∀ (bound f g : Nat) (s : Str), s.length ≤ bound → s.length ≤ f →
      s.length ≤ g → extractScanF f s = extractScanF g s := by
  intro bound
  induction bound with
  | zero =>
    intro f g s h0 hf hg
    have hs : s = [] := List.eq_nil_of_length_eq_zero (Nat.le_zero.mp h0)
    subst hs
    cases f <;> cases g <;> rfl
  | succ bound ih =>
    intro f g s hb hf hg
    cases s with
    | nil => cases f <;> cases g <;> rfl
    | cons c rest =>
      simp only [List.length_cons] at hb hf hg
      cases f with
      | zero => omega
      | succ f =>
        cases g with
        | zero => omega
        | succ g =>
          simp only [extractScanF]
          have hrest : extractScanF f rest = extractScanF g rest :=
            ih f g rest (by omega) (by omega) (by omega)
          by_cases hc : c = obrace
          · subst hc
            rw [if_pos rfl, if_pos rfl]
            cases rest with
            | nil => rfl
            | cons c2 rest2 =>
              simp only [List.length_cons] at hb hf hg
              dsimp only
              by_cases hc2 : c2 = obrace
              · subst hc2
                rw [if_pos rfl, if_pos rfl]
                cases hdrop :
                    rest2.drop (rest2.takeWhile (fun ch => ch ≠ cbrace)).length with
                | nil => simpa using hrest
                | cons d1 tl =>
                  cases tl with
                  | nil => simpa using hrest
                  | cons d2 rest3 =>
                    have hlen3 : rest3.length + 2 ≤ rest2.length := by
                      have := congrArg List.length hdrop
                      simp only [List.length_drop, List.length_cons] at this
                      omega
                    have hrec : extractScanF f rest3 = extractScanF g rest3 :=
                      ih f g rest3 (by omega) (by omega) (by omega)
                    by_cases hcond :
                        (rest2.takeWhile (fun ch => ch ≠ cbrace)) ≠ [] ∧
                          d1 = cbrace ∧ d2 = cbrace
                    · simp only [if_pos hcond, hrec]
                    · simp only [if_neg hcond, hrest]
              · rw [if_neg hc2, if_neg hc2]; exact hrest
          · rw [if_neg hc, if_neg hc]
            simp only [hrest]

/-- `extractScanF` with the canonical fuel. -/
def extractScan (s : Str) : List Str := extractScanF s.length s

/-- UTF-16 code-unit comparison of `Array.prototype.sort`'s default
comparator (identical to scalar-value order on the characters involved
here). -/
def strLe : Str → Str → Bool
  | [], _ => true
  | _ :: _, [] => false
  | a :: as, b :: bs =>
    if a.val < b.val then true
    else if b.val < a.val then false
    else strLe as bs

/-- Insertion into a sorted list of token names. -/
def insertSorted (x : Str) : List Str → List Str
  | [] => [x]
  | y :: ys => if strLe x y then x :: y :: ys else y :: insertSorted x ys

/-- Insertion sort with the JavaScript default string comparison. -/
def sortStrs : List Str → List Str
  | [] => []
  | x :: xs => insertSorted x (sortStrs xs)

/-- `TokenExtractor.extractTokens(templateContent)`: the unique token
names, in sorted order. -/
def extractTokens (templateContent : Str) : List Str :=
  sortStrs (extractScan templateContent).dedup

/-- The characters of the character class in `TokenReplacer.escapeRegex`. -/
def escClass (c : Char) : Bool :=
  c = '.' || c = '*' || c = '+' || c = '?' || c = '^' || c = dollarChar ||
  c = obrace || c = cbrace || c = '(' || c = ')' || c = '|' || c = '[' ||
  c = '\\'

/-- `TokenReplacer.escapeRegex(str)` as written in the source: its regex
matches one class character followed by two literal backslashes and a
literal `]`, and prefixes each such match with two backslashes.  (On any
token name that contains no backslash it is therefore the identity.) -/
def escapeRegexJSF : Nat → Str → Str
  | 0, _ => []
  | _ + 1, [] => []
  | fuel + 1, c :: rest =>
    match rest with
    | b1 :: b2 :: br :: rest2 =>
      if escClass c ∧ b1 = '\\' ∧ b2 = '\\' ∧ br = ']' then
        '\\' :: '\\' :: c :: b1 :: b2 :: br :: escapeRegexJSF fuel rest2
      else c :: escapeRegexJSF fuel rest
    | _ => c :: escapeRegexJSF fuel rest

/-- `escapeRegexJSF` with the canonical fuel. -/
def escapeRegexJS (s : Str) : Str := escapeRegexJSF s.length s

/-- One regex atom of the compiled token pattern. -/
inductive PatChar where
  | lit (c : Char)
  | wild

/-- The body of the token regex between the brace/whitespace parts:
`escapeRegex(token)` read as a regex.  This interpretation is exact for
names whose escaped form contains no regex metacharacter other than `.`
(which, being unescaped in the source, is a non-line-terminator
wildcard); all theorems below restrict token names accordingly. -/
def tokenPat (t : Str) : List PatChar :=
  (escapeRegexJS t).map (fun c => if c = '.' then PatChar.wild else PatChar.lit c)

/-- JavaScript line terminators, not matched by an unflagged `.`. -/
def lineTerm (c : Char) : Bool :=
  c = Char.ofNat 10 || c = Char.ofNat 13 || c = Char.ofNat 0x2028 ||
  c = Char.ofNat 0x2029

/-- Match a fixed-width atom sequence at the head of `s`, returning the
remainder. -/
def matchPat : List PatChar → Str → Option Str
  | [], s => some s
  | _ :: _, [] => none
  | PatChar.lit c :: ps, x :: xs => if x = c then matchPat ps xs else none
  | PatChar.wild :: ps, x :: xs => if lineTerm x then none else matchPat ps xs

/-- Length of the maximal whitespace run at the head of `s`. -/
def wsCount (s : Str) : Nat := (s.takeWhile wsChar).length

/-- Greedy backtracking over the first `\s*`: try the longest whitespace
prefix first. -/
def tryFrom (f : Nat → Option Nat) : Nat → Option Nat
  | 0 => f 0
  | k + 1 =>
    match f (k + 1) with
    | some r => some r
    | none => tryFrom f k

/-- Match `\s*` ++ pattern ++ `\s*` ++ `\}\}` at the head of `s` (the text
right after a `{{`), returning the number of characters consumed.  The
first `\s*` backtracks greedily; the second needs no backtracking because
`}` is not a whitespace character, so only its maximal run can be
followed by `}}`. -/
def matchMarker (p : List PatChar) (s : Str) : Option Nat :=
  tryFrom
    (fun k =>
      match matchPat p (s.drop k) with
      | none => none
      | some s2 =>
        let j := wsCount s2
        match s2.drop j with
        | d1 :: d2 :: _ =>
          if d1 = cbrace ∧ d2 = cbrace then some (k + p.length + j + 2) else none
        | _ => none)
    (wsCount s)

/-- Expansion of a `String.replace` replacement string: `$$`, `$&`,
`` $` `` and `$'` are special; a `$` followed by anything else (there are
no capture groups in the token regex) is literal. -/
def expandReplF (before matched after : Str) : Nat → Str → Str
  | 0, _ => []
  | _ + 1, [] => []
  | fuel + 1, c :: rest =>
    if c = dollarChar then
      match rest with
      | [] => [c]
      | d :: rest2 =>
        if d = dollarChar then
          dollarChar :: expandReplF before matched after fuel rest2
        else if d = '&' then
          matched ++ expandReplF before matched after fuel rest2
        else if d = backtickChar then
          before ++ expandReplF before matched after fuel rest2
        else if d = quoteChar then
          after ++ expandReplF before matched after fuel rest2
        else c :: expandReplF before matched after fuel rest
    else c :: expandReplF before matched after fuel rest

/-- `expandReplF` with the canonical fuel. -/
def expandRepl (before matched after s : Str) : Str :=
  expandReplF before matched after s.length s

/-- One global `result.replace(tokenRegex, replStr)` pass: leftmost scan;
at each `{{` the marker pattern is tried, a match is replaced by the
expanded replacement and scanning resumes after it, otherwise the scan
advances one character.  `before` accumulates the consumed input (the
portion of the subject before the current position, as needed by `` $` ``
and `$'`). -/
def scanReplF (p : List PatChar) (replStr : Str) : Nat → Str → Str → Str
  | 0, _, _ => []
  | _ + 1, _, [] => []
  | fuel + 1, before, c :: rest =>
    if c = obrace then
      match rest with
      | [] => [c]
      | c2 :: rest2 =>
        if c2 = obrace then
          match matchMarker p rest2 with
          | some n =>
            expandRepl before (c :: c2 :: rest2.take n) (rest2.drop n) replStr ++
              scanReplF p replStr fuel (before ++ c :: c2 :: rest2.take n)
                (rest2.drop n)
          | none => c :: scanReplF p replStr fuel (before ++ [c]) (c2 :: rest2)
        else c :: scanReplF p replStr fuel (before ++ [c]) (c2 :: rest2)
    else c :: scanReplF p replStr fuel (before ++ [c]) rest

/-- The fuel is irrelevant as soon as it covers the text length. -/
theorem scanReplF_congr (p : List PatChar) (replStr : Str) :
    ∀ (bound f g : Nat) (before s : Str), s.length ≤ bound → s.length ≤ f →
      s.length ≤ g →
      scanReplF p replStr f before s = scanReplF p replStr g before s := by
  intro bound
  induction bound with
  | zero =>
    intro f g before s h0 hf hg
    have hs : s = [] := List.eq_nil_of_length_eq_zero (Nat.le_zero.mp h0)
    subst hs
    cases f <;> cases g <;> rfl
  | succ bound ih =>
    intro f g before s hb hf hg
    cases s with
    | nil => cases f <;> cases g <;> rfl
    | cons c rest =>
      simp only [List.length_cons] at hb hf hg
      cases f with
      | zero => omega
      | succ f =>
        cases g with
        | zero => omega
        | succ g =>
          simp only [scanReplF]
          have hrest : ∀ b : Str,
              scanReplF p replStr f b rest = scanReplF p replStr g b rest :=
            fun b => ih f g b rest (by omega) (by omega) (by omega)
          by_cases hc : c = obrace
          · subst hc
            rw [if_pos rfl, if_pos rfl]
            cases rest with
            | nil => rfl
            | cons c2 rest2 =>
              simp only [List.length_cons] at hb hf hg
              dsimp only
              by_cases hc2 : c2 = obrace
              · subst hc2
                rw [if_pos rfl, if_pos rfl]
                cases hmm : matchMarker p rest2 with
                | some n =>
                  have hdl : (rest2.drop n).length ≤ rest2.length := by
                    simp [List.length_drop]
                  have hrec :
                      scanReplF p replStr f
                          (before ++ obrace :: obrace :: rest2.take n)
                          (rest2.drop n) =
                        scanReplF p replStr g
                          (before ++ obrace :: obrace :: rest2.take n)
                          (rest2.drop n) :=
                    ih f g _ (rest2.drop n) (by omega) (by omega) (by omega)
                  simp only [hrec]
                | none => simp only [hrest]
              · rw [if_neg hc2, if_neg hc2]
                simp only [hrest]
          · rw [if_neg hc, if_neg hc]
            simp only [hrest]

/-- One global `result.replace(tokenRegex, replStr)` pass with the
canonical fuel. -/
def scanRepl (p : List PatChar) (replStr : Str) (before s : Str) : Str :=
  scanReplF p replStr s.length before s

/-- The three error-handling strategies of the replacement system. -/
inductive ErrorPolicy where
  | fail
  | warn
  | graceful
deriving DecidableEq

/-- Whether `value !== undefined && value !== null` fails. -/
def isMissingValue : JSValue → Bool
  | undef => true
  | null => true
  | _ => false

/-- Message `Token 'x' not found in config`. -/
def msgNotFound (t : Str) : Str :=
  toChars "Token " ++ quoteChar :: t ++ quoteChar :: toChars " not found in config"

/-- `TokenReplacer.handleMissingToken`: whether to substitute, and with
what. -/
def handleMissingToken (policy : ErrorPolicy) (placeholder : Str) : Bool × Str :=
  match policy with
  | .fail => (false, [])
  | .warn => (true, placeholder)
  | .graceful => (true, placeholder)

/-- Outcome of the token loop of `TokenReplacer.replaceTokens`: the text,
the collected warnings, and (instrumentation of the same loop) the tokens
that were substituted with a resolved value. -/
structure ReplaceOutcome where
  text : Str
  warnings : List Str
  replaced : List Str

/-- The `for (const token of tokens)` loop of
`TokenReplacer.replaceTokens`. -/
def replaceCore (config : JSValue) (policy : ErrorPolicy) (placeholder : Str) :
    List Str → Str → ReplaceOutcome
  | [], result => ⟨result, [], []⟩
  | t :: ts, result =>
    let value := getNestedValue config t
    if isMissingValue value then
      let step := handleMissingToken policy placeholder
      let result2 :=
        if step.1 then scanRepl (tokenPat t) step.2 [] result else result
      let r := replaceCore config policy placeholder ts result2
      ⟨r.text, msgNotFound t :: r.warnings, r.replaced⟩
    else
      let result2 := scanRepl (tokenPat t) (jsToString value) [] result
      let r := replaceCore config policy placeholder ts result2
      ⟨r.text, r.warnings, t :: r.replaced⟩

/-- `TokenReplacer.replaceTokens(content, config, tokens, options)` with
the default `[MISSING]` placeholder: run the loop, then throw under
`fail` when any warning was collected. -/
def replaceTokens (content : Str) (config : JSValue) (tokens : Option (List Str))
    (policy : ErrorPolicy) (placeholder : Str := toChars "[MISSING]") :
    Except Str (Str × List Str) :=
  let toks := tokens.getD (extractTokens content)
  let r := replaceCore config policy placeholder toks content
  if r.warnings ≠ [] ∧ policy = .fail then
    .error (toChars "Token replacement failed:" ++
      Char.ofNat 10 :: joinWith [Char.ofNat 10] r.warnings)
  else .ok (r.text, r.warnings)

/-- The warnings actually surfaced to the caller's console: only the
`warn` policy emits them (`graceful` stays silent). -/
def surfacedWarnings (policy : ErrorPolicy) (warnings : List Str) : List Str :=
  if policy = .warn then warnings else []

/-- The record returned by `TokenReplacer.previewReplacements`. -/
structure PreviewResult where
  tokens : List (Str × Str)
  missing : List Str
  errors : List Str

/-- The token loop of `TokenReplacer.previewReplacements`.  The `catch`
branch that would push onto `errors` is unreachable: `getNestedValue` is
total on parsed-JSON values. -/
def previewLoop (config : JSValue) : List Str → PreviewResult
  | [] => ⟨[], [], []⟩
  | t :: ts =>
    let r := previewLoop config ts
    let value := getNestedValue config t
    if isMissingValue value then { r with missing := t :: r.missing }
    else { r with tokens := (t, jsToString value) :: r.tokens }

/-- `TokenReplacer.previewReplacements(content, config, tokens)`. -/
def previewReplacements (content : Str) (config : JSValue)
    (tokens : Option (List Str)) : PreviewResult :=
  previewLoop config (tokens.getD (extractTokens content))

/-- The file system visible to one synchronous run: absolute path to
(content, modification time).  `path.resolve` is modelled as the identity
on the already-absolute paths used throughout. -/
abbrev FileSys := List (Str × (Str × Nat))

/-- The extractor's process-wide cache: absolute path to (tokens, mtime). -/
abbrev Cache := List (Str × (List Str × Nat))

/-- Association-list lookup for the file system. -/
def fsGet : FileSys → Str → Option (Str × Nat)
  | [], _ => none
  | (k, v) :: rest, p => if k = p then some v else fsGet rest p

/-- Association-list lookup for the cache. -/
def cacheGet : Cache → Str → Option (List Str × Nat)
  | [], _ => none
  | (k, v) :: rest, p => if k = p then some v else cacheGet rest p

/-- `Map.set`: replace an existing entry or append a new one. -/
def cacheSet : Cache → Str → List Str × Nat → Cache
  | [], p, e => [(p, e)]
  | (k, v) :: rest, p, e =>
    if k = p then (k, e) :: rest else (k, v) :: cacheSet rest p e

/-- `Map.delete`. -/
def cacheDel : Cache → Str → Cache
  | [], _ => []
  | (k, v) :: rest, p => if k = p then rest else (k, v) :: cacheDel rest p

/-- The read-extract-and-cache block of `TokenExtractor.getCachedTokens`
(the second `try` of the source: read, extract, stat, store). -/
def readAndCacheTokens (fs : FileSys) (cache : Cache) (p : Str) :
    Except Str (List Str) × Cache :=
  match fsGet fs p with
  | some (content, m) =>
    (.ok (extractTokens content), cacheSet cache p (extractTokens content, m))
  | none => (.error (toChars "Error reading template file " ++ p), cache)

/-- `TokenExtractor.getCachedTokens(templatePath)`: return the cached
token list when the stored modification time still matches, drop the
entry and fail when the file vanished, and otherwise re-read, re-extract
and update the cache. -/
def getCachedTokens (fs : FileSys) (cache : Cache) (p : Str) :
    Except Str (List Str) × Cache :=
  match cacheGet cache p with
  | some (tokens, mt) =>
    match fsGet fs p with
    | some (_, m) =>
      if m = mt then (.ok tokens, cache)
      else readAndCacheTokens fs cache p
    | none => (.error (toChars "Template file not found: " ++ p), cacheDel cache p)
  | none => readAndCacheTokens fs cache p

/-- Options of `TemplateProcessor` with the constructor's defaults. -/
structure ProcOptions where
  errorHandling : ErrorPolicy := .warn
  missingTokenPlaceholder : Str := toChars "[MISSING]"
  strictValidation : Bool := false
  allowEmptyValues : Bool := false
  warnOnUnused : Bool := false
  cacheTokens : Bool := true

/-- The per-template record built by `TemplateProcessor.processTemplate`
(the fields the failure branch does not set are `none`/empty). -/
structure ProcessResult where
  success : Bool
  templatePath : Str
  content : Option Str
  originalContent : Option Str
  tokensFound : List Str
  tokensMissing : List Str
  tokensReplaced : List Str
  validation : Option ValidationResult
  error : Option Str

/-- A failure result of `processTemplate` (its `catch` branch). -/
def procFailure (p : Str) (e : Str) : ProcessResult :=
  ⟨false, p, none, none, [], [], [], none, some e⟩

/-- `TemplateProcessor.processTemplate(templatePath, config)`: read,
extract (cached or not), validate, optionally abort under strict `fail`,
replace, and package the result; every thrown error is caught into a
failure record. -/
def processTemplate (fs : FileSys) (cache : Cache) (p : Str) (config : JSValue)
    (opts : ProcOptions) : ProcessResult × Cache :=
  match fsGet fs p with
  | none => (procFailure p (toChars "no such file " ++ p), cache)
  | some (content, _) =>
    let step2 :=
      if opts.cacheTokens then getCachedTokens fs cache p
      else (.ok (extractTokens content), cache)
    match step2 with
    | (.error e, cache2) => (procFailure p e, cache2)
    | (.ok tokens, cache2) =>
      let validation := validateAgainstTokens config tokens
        ⟨opts.strictValidation, opts.allowEmptyValues, opts.warnOnUnused⟩
      if !validation.valid && opts.errorHandling = .fail then
        (procFailure p (toChars "Template validation failed for " ++ p ++
          Char.ofNat 10 :: joinWith [Char.ofNat 10] validation.errors), cache2)
      else
        match replaceTokens content config (some tokens) opts.errorHandling
            opts.missingTokenPlaceholder with
        | .error e => (procFailure p e, cache2)
        | .ok (processed, _) =>
          (⟨true, p, some processed, some content, tokens,
            validation.missing.map MissingEntry.token,
            validation.found.map FoundEntry.token,
            some validation, none⟩, cache2)

/-- The summary counters of a batch run. -/
structure BatchSummary where
  total : Nat
  successful : Nat
  failed : Nat

/-- The record built by `TemplateProcessor.processMultipleTemplates`. -/
structure BatchResult where
  success : Bool
  processed : List ProcessResult
  failed : List ProcessResult
  summary : BatchSummary
  aggregatedTokens : List Str
  aggErrors : List Str
  aggWarnings : List Str

/-- `Set.add` over an insertion-ordered unique list. -/
def addUnique (xs : List Str) (x : Str) : List Str :=
  if x ∈ xs then xs else xs ++ [x]

/-- Aggregate a result's found tokens into the batch set. -/
def addUniques (xs : List Str) : List Str → List Str
  | [] => xs
  | y :: ys => addUniques (addUnique xs y) ys

/-- One iteration of the `for (const templatePath of templatePaths)` loop
of `processMultipleTemplates`. -/
def processBatchStep (fs : FileSys) (config : JSValue) (opts : ProcOptions)
    (st : BatchResult × Cache) (p : Str) : BatchResult × Cache :=
  let b := st.1
  let out := processTemplate fs st.2 p config opts
  let r := out.1
  if r.success then
    ({ b with
        processed := b.processed ++ [r]
        summary := { b.summary with successful := b.summary.successful + 1 }
        aggregatedTokens := addUniques b.aggregatedTokens r.tokensFound
        aggErrors := b.aggErrors ++ (r.validation.map ValidationResult.errors).getD []
        aggWarnings := b.aggWarnings ++
          (r.validation.map ValidationResult.warnings).getD [] }, out.2)
  else
    ({ b with
        success := false
        failed := b.failed ++ [r]
        summary := { b.summary with failed := b.summary.failed + 1 } }, out.2)

/-- `TemplateProcessor.processMultipleTemplates(templatePaths, config)`:
every input is attempted; failures are recorded and never abort the
remaining files. -/
def processMultipleTemplates (fs : FileSys) (cache : Cache) (paths : List Str)
    (config : JSValue) (opts : ProcOptions) : BatchResult × Cache :=
  paths.foldl (processBatchStep fs config opts)
    (⟨true, [], [], ⟨paths.length, 0, 0⟩, [], [], []⟩, cache)

/-- Boolean test `value === undefined`. -/
def isUndefV : JSValue → Bool
  | undef => true
  | _ => false

/-- Boolean test `value === null`. -/
def isNullV : JSValue → Bool
  | null => true
  | _ => false

/-- Boolean test `value === ''`. -/
def isEmptyStrV : JSValue → Bool
  | str [] => true
  | _ => false

/-- Descending from `undefined` yields `undefined` for any remaining
segments. -/
theorem getLoop_undef : ∀ ks : List Str, getLoop JSValue.undef ks = JSValue.undef := by
  intro ks; cases ks <;> rfl

/-- C4 counterexample: resolving a path whose final value is `null`
returns `null`, not `undefined` as the claim words it. -/
theorem c4_counterexample :
    getNestedValue (JSValue.obj [(toChars "a", JSValue.null)]) (toChars "a") =
      JSValue.null ∧ JSValue.null ≠ JSValue.undef :=
  ⟨rfl, fun h => JSValue.noConfusion h⟩

/-- C4 (amended): dotted-path resolution descends one segment at a time
and is total by construction; it yields `undefined` whenever an
intermediate value is not an object or a segment key is absent, while a
`null` final value is returned as `null` — classified as missing by the
callers; `payment.amount` resolves to `$1,500` and `a.b.c` with a string
at `a.b` resolves to `undefined`. -/
theorem c4_dotted_resolution :
    (∀ (props : List (Str × JSValue)) (k : Str) (ks : List Str),
      getLoop (JSValue.obj props) (k :: ks) = getLoop (propGet props k) ks) ∧
    (∀ (v : JSValue) (k : Str) (ks : List Str),
      isObjTypeof v = false ∨ isNullV v = true ∨ isUndefV v = true →
      getLoop v (k :: ks) = JSValue.undef) ∧
    (∀ (props : List (Str × JSValue)) (k : Str) (ks : List Str),
      isUndefV (propGet props k) = true →
      getLoop (JSValue.obj props) (k :: ks) = JSValue.undef) ∧
    (∀ (props : List (Str × JSValue)) (k : Str),
      isNullV (propGet props k) = true →
      getLoop (JSValue.obj props) [k] = JSValue.null) ∧
    isMissingValue JSValue.null = true ∧
    getNestedValue
      (JSValue.obj [(toChars "payment",
        JSValue.obj [(toChars "amount", JSValue.str (toChars "$1,500"))])])
      (toChars "payment.amount") = JSValue.str (toChars "$1,500") ∧
    getNestedValue
      (JSValue.obj [(toChars "a",
        JSValue.obj [(toChars "b", JSValue.str (toChars "zz"))])])
      (toChars "a.b.c") = JSValue.undef := by
  refine ⟨fun props k ks => rfl, ?_, ?_, ?_, rfl, rfl, rfl⟩
  · intro v k ks h
    cases v <;> simp [isObjTypeof, isNullV, isUndefV] at h <;> rfl
  · intro props k ks h
    have hv : propGet props k = JSValue.undef := by
      cases hp : propGet props k <;> simp [hp, isUndefV] at h <;> rfl
    show getLoop (propGet props k) ks = JSValue.undef
    rw [hv, getLoop_undef]
  · intro props k h
    have hv : propGet props k = JSValue.null := by
      cases hp : propGet props k <;> simp [hp, isNullV] at h <;> rfl
    show getLoop (propGet props k) [] = JSValue.null
    rw [hv]; rfl

/-- C4 witness: the amended statement applied at concrete inputs. -/
theorem c4_dotted_resolution_witness :
    getLoop (JSValue.str (toChars "zz")) (toChars "c" :: []) = JSValue.undef ∧
    getLoop (JSValue.obj [(toChars "x", JSValue.num 1)]) [toChars "y"] =
      JSValue.undef ∧
    getLoop (JSValue.obj [(toChars "a", JSValue.null)]) [toChars "a"] =
      JSValue.null :=
  ⟨c4_dotted_resolution.2.1 _ _ _ (Or.inl rfl),
   c4_dotted_resolution.2.2.1 _ _ _ rfl,
   c4_dotted_resolution.2.2.2.1 _ _ rfl⟩

/-- C6 counterexample: `items.0` resolves to the first array element, not
to a missing value. -/
theorem c6_counterexample :
    getNestedValue
      (JSValue.obj [(toChars "items",
        JSValue.arr [JSValue.str (toChars "first"), JSValue.str (toChars "second")])])
      (toChars "items.0") = JSValue.str (toChars "first") ∧
    isMissingValue (JSValue.str (toChars "first")) = false :=
  ⟨rfl, rfl⟩

/-- C6 (amended): dotted-path resolution does descend into arrays —
`items.0` yields the element (and `getLoop` steps through array values
like object values) — while the unused-value flattening
(`getAllConfigPaths`) treats arrays as opaque leaves. -/
theorem c6_array_behaviour :
    getNestedValue
      (JSValue.obj [(toChars "items",
        JSValue.arr [JSValue.str (toChars "first"), JSValue.str (toChars "second")])])
      (toChars "items.0") = JSValue.str (toChars "first") ∧
    (∀ (xs : List JSValue) (k : Str) (ks : List Str),
      getLoop (JSValue.arr xs) (k :: ks) = getLoop (arrGet xs k) ks) ∧
    (∀ (k : Str) (xs : List JSValue) (rest : List (Str × JSValue)) (pre : Str),
      getAllConfigPathsProps ((k, JSValue.arr xs) :: rest) pre =
        (if pre = [] then k else pre ++ '.' :: k) ::
          getAllConfigPathsProps rest pre) := by
  refine ⟨rfl, fun xs k ks => rfl, ?_⟩
  intro k xs rest pre
  simp [getAllConfigPathsProps, jsFalsy, isObjTypeof, isArr]

/-- C10: the embedded `getNestedValue` is a total function on parsed-JSON
values, so the guarded exception branches are dead: `previewReplacements`
always returns an empty `errors` list and `validateSingleToken` only ever
produces the three non-exceptional missing reasons. -/
theorem c10_no_exception_branches :
    (∀ (content : Str) (cfg : JSValue) (toks : Option (List Str)),
      (previewReplacements content cfg toks).errors = []) ∧
    (∀ (cfg : JSValue) (t : Str) (allowEmpty : Bool),
      (∃ v, validateSingleToken cfg t allowEmpty = SingleResult.found v) ∨
      validateSingleToken cfg t allowEmpty =
        SingleResult.missing (toChars "not found in config") ∨
      validateSingleToken cfg t allowEmpty =
        SingleResult.missing (toChars "value is null") ∨
      validateSingleToken cfg t allowEmpty =
        SingleResult.missing (toChars "value is empty string")) := by
  constructor
  · intro content cfg toks
    show (previewLoop cfg (toks.getD (extractTokens content))).errors = []
    generalize toks.getD (extractTokens content) = ts
    induction ts with
    | nil => rfl
    | cons t ts ih =>
      show (previewLoop cfg (t :: ts)).errors = []
      simp only [previewLoop]
      cases isMissingValue (getNestedValue cfg t) <;> simpa using ih
  · intro cfg t allowEmpty
    unfold validateSingleToken
    rcases getNestedValue cfg t with _ | _ | b | n | s | xs | props
    · right; left; rfl
    · right; right; left; rfl
    · left; exact ⟨_, rfl⟩
    · left; exact ⟨_, rfl⟩
    · cases s with
      | nil =>
        cases allowEmpty
        · right; right; right; rfl
        · left; exact ⟨_, rfl⟩
      | cons c cs => left; exact ⟨_, rfl⟩
    · left; exact ⟨_, rfl⟩
    · left; exact ⟨_, rfl⟩

/-- The validator's token loop ignores the `warnOnUnused` option. -/
theorem validateLoop_warnOnUnused (cfg : JSValue) (s a u u' : Bool) :
    ∀ ts : List Str,
      validateLoop cfg ⟨s, a, u⟩ ts = validateLoop cfg ⟨s, a, u'⟩ ts := by
  intro ts
  induction ts with
  | nil => rfl
  | cons t ts ih => simp only [validateLoop, ih]

/-- C9: with `warnOnUnused` enabled the `unused` list is exactly the
flattened dotted leaf paths of the configuration that occur in no token,
the example configuration reports `unused_field` and not `client_name`,
and the option never changes the `valid` flag. -/
theorem c9_unused_detection :
    (∀ (cfg : JSValue) (toks : List Str) (s a : Bool),
      (validateAgainstTokens cfg toks ⟨s, a, true⟩).unused =
        (getAllConfigPaths cfg []).filter (fun p => p ∉ toks)) ∧
    (validateAgainstTokens
      (JSValue.obj [(toChars "client_name", JSValue.str (toChars "X")),
        (toChars "unused_field", JSValue.str (toChars "Y"))])
      [toChars "client_name"] ⟨false, false, true⟩).unused =
      [toChars "unused_field"] ∧
    (∀ (cfg : JSValue) (toks : List Str) (s a u u' : Bool),
      (validateAgainstTokens cfg toks ⟨s, a, u⟩).valid =
        (validateAgainstTokens cfg toks ⟨s, a, u'⟩).valid) := by
  refine ⟨?_, by decide, ?_⟩
  · intro cfg toks s a
    simp [validateAgainstTokens, findUnusedConfigValues]
  · intro cfg toks s a u u'
    cases u <;> cases u' <;>
      simp [validateAgainstTokens, validateLoop_warnOnUnused cfg s a true false]

/-- C1 counterexample: with `config = (name : empty string)` the
Validator's `found` set is empty while the Replacer substitutes `name`
(with the empty string), so the two sets differ. -/
theorem c1_counterexample :
    (validateAgainstTokens (JSValue.obj [(toChars "name", JSValue.str [])])
      [toChars "name"] ⟨false, false, false⟩).found = [] ∧
    (replaceCore (JSValue.obj [(toChars "name", JSValue.str [])]) .warn
      (toChars "[MISSING]") [toChars "name"]
      (toChars "Hi \x7b\x7bname\x7d\x7d")).replaced = [toChars "name"] ∧
    ([] : List FoundEntry).length ≠ [toChars "name"].length := by
  refine ⟨rfl, by decide, by decide⟩

/-- C1 (amended): for every text, configuration, token list and non-fail
policy, the Validator's `found` set (default options) equals the set of
tokens the Replacer substitutes with a resolved value, provided no token
resolves to the empty string; a token resolving to the empty string is
reported missing by the Validator but substituted by the Replacer. -/
theorem c1_found_eq_replaced (cfg : JSValue) (tokens : List Str)
    (content : Str) (policy : ErrorPolicy) (ph : Str)
    (hpol : policy ≠ .fail)
    (hne : (tokens.all fun t => !(isEmptyStrV (getNestedValue cfg t))) = true) :
    (validateAgainstTokens cfg tokens ⟨false, false, false⟩).found.map
        FoundEntry.token =
      (replaceCore cfg policy ph tokens content).replaced := by
  show (validateLoop cfg ⟨false, false, false⟩ tokens).found.map FoundEntry.token =
    (replaceCore cfg policy ph tokens content).replaced
  clear hpol
  induction tokens generalizing content with
  | nil => rfl
  | cons t ts ih =>
    simp only [List.all_cons, Bool.and_eq_true] at hne
    simp only [validateLoop, replaceCore, validateSingleToken]
    rcases hv : getNestedValue cfg t with _ | _ | b | n | s | xs | props
    · simpa [hv, isMissingValue] using ih _ hne.2
    · simpa [hv, isMissingValue] using ih _ hne.2
    · simpa [hv, isMissingValue] using ih _ hne.2
    · simpa [hv, isMissingValue] using ih _ hne.2
    · cases s with
      | nil => rw [hv] at hne; simp [isEmptyStrV] at hne
      | cons c cs => simpa [hv, isMissingValue] using ih _ hne.2
    · simpa [hv, isMissingValue] using ih _ hne.2
    · simpa [hv, isMissingValue] using ih _ hne.2

/-- C1 witness: the amended statement applied at a concrete input. -/
theorem c1_found_eq_replaced_witness :
    (ErrorPolicy.warn ≠ ErrorPolicy.fail) ∧
    (([toChars "name"].all fun t =>
      !(isEmptyStrV (getNestedValue
        (JSValue.obj [(toChars "name", JSValue.str (toChars "Bob"))]) t))) = true) ∧
    (validateAgainstTokens (JSValue.obj [(toChars "name", JSValue.str (toChars "Bob"))])
        [toChars "name"] ⟨false, false, false⟩).found.map FoundEntry.token =
      (replaceCore (JSValue.obj [(toChars "name", JSValue.str (toChars "Bob"))])
        .warn (toChars "[MISSING]") [toChars "name"]
        (toChars "Hi \x7b\x7bname\x7d\x7d")).replaced :=
  ⟨by decide, by decide,
   c1_found_eq_replaced _ _ _ _ _ (by decide) (by decide)⟩

/-- The `warn` and `graceful` policies run the token loop identically
(both substitute the placeholder; they differ only in emission). -/
theorem replaceCore_warn_eq_graceful (cfg : JSValue) (ph : Str) :
    ∀ (tokens : List Str) (content : Str),
      replaceCore cfg .warn ph tokens content =
        replaceCore cfg .graceful ph tokens content := by
  intro tokens
  induction tokens with
  | nil => intro content; rfl
  | cons t ts ih =>
    intro content
    simp only [replaceCore, handleMissingToken, ih]

/-- C5: `warn` and `graceful` return identical results for every input
(so in particular identical output text); on `Hi (name)` with an empty
configuration both return `Hi [MISSING]`, `warn` surfaces exactly the one
warning naming `name`, and `graceful` surfaces none. -/
theorem c5_warn_graceful_policies :
    (∀ (content : Str) (cfg : JSValue) (toks : Option (List Str)) (ph : Str),
      replaceTokens content cfg toks .warn ph =
        replaceTokens content cfg toks .graceful ph) ∧
    replaceTokens (toChars "Hi \x7b\x7bname\x7d\x7d") (JSValue.obj []) none .warn =
      .ok (toChars "Hi [MISSING]", [msgNotFound (toChars "name")]) ∧
    replaceTokens (toChars "Hi \x7b\x7bname\x7d\x7d") (JSValue.obj []) none .graceful =
      .ok (toChars "Hi [MISSING]", [msgNotFound (toChars "name")]) ∧
    (∀ w : List Str, surfacedWarnings .warn w = w) ∧
    (∀ w : List Str, surfacedWarnings .graceful w = []) := by
  refine ⟨?_, rfl, rfl, fun w => rfl, fun w => rfl⟩
  intro content cfg toks ph
  simp only [replaceTokens, replaceCore_warn_eq_graceful]
  split <;> rename_i hcond
  · exact absurd hcond.2 (by simp)
  · split <;> rename_i hcond2
    · exact absurd hcond2.2 (by simp)
    · rfl

/-- The warnings collected by the token loop are exactly one
`not found in config` message per missing token, in token order,
whatever the policy. -/
theorem replaceCore_warnings (cfg : JSValue) (policy : ErrorPolicy) (ph : Str) :
    ∀ (tokens : List Str) (content : Str),
      (replaceCore cfg policy ph tokens content).warnings =
        (tokens.filter fun t => isMissingValue (getNestedValue cfg t)).map
          msgNotFound := by
  intro tokens
  induction tokens with
  | nil => intro content; rfl
  | cons t ts ih =>
    intro content
    simp only [replaceCore, List.filter_cons]
    cases hm : isMissingValue (getNestedValue cfg t) <;> simp [hm, ih]

/-- Under `fail` no missing token alters the text: the loop's text equals
the text of the loop run on the resolvable tokens only. -/
theorem replaceCore_fail_text (cfg : JSValue) (ph : Str) :
    ∀ (tokens : List Str) (content : Str),
      (replaceCore cfg .fail ph tokens content).text =
        (replaceCore cfg .fail ph
          (tokens.filter fun t => !(isMissingValue (getNestedValue cfg t)))
          content).text := by
  intro tokens content
  induction tokens generalizing content with
  | nil => rfl
  | cons t ts ih =>
    simp only [replaceCore, List.filter_cons]
    cases hm : isMissingValue (getNestedValue cfg t)
    · simpa [hm, replaceCore] using ih _
    · simpa [hm, handleMissingToken, replaceCore] using ih _

/-- C2: under the `fail` policy, any unresolvable token makes
`replaceTokens` throw an error listing every missing token of the pass,
and no missing token's marker is touched before the throw (the pre-throw
text is the one produced by the resolvable tokens alone). -/
theorem c2_fail_lists_all_missing (content : Str) (cfg : JSValue)
    (tokens : List Str) (ph : Str)
    (hany : (tokens.any fun t => isMissingValue (getNestedValue cfg t)) = true) :
    replaceTokens content cfg (some tokens) .fail ph =
      .error (toChars "Token replacement failed:" ++
        Char.ofNat 10 :: joinWith [Char.ofNat 10]
          ((tokens.filter fun t => isMissingValue (getNestedValue cfg t)).map
            msgNotFound)) ∧
    (replaceCore cfg .fail ph tokens content).text =
      (replaceCore cfg .fail ph
        (tokens.filter fun t => !(isMissingValue (getNestedValue cfg t)))
        content).text := by
  refine ⟨?_, replaceCore_fail_text cfg ph tokens content⟩
  have hw := replaceCore_warnings cfg .fail ph tokens content
  have hne : (replaceCore cfg .fail ph tokens content).warnings ≠ [] := by
    rw [hw]
    simp only [ne_eq, List.map_eq_nil, List.filter_eq_nil]
    simp only [List.any_eq_true] at hany
    obtain ⟨t, ht, hmt⟩ := hany
    intro hall
    exact absurd hmt (by simpa using hall t ht)

  simp only [replaceTokens, Option.getD_some]
  split
  · rw [hw]
  · rename_i hcond; exact absurd ⟨hne, trivial⟩ hcond

/-- C2 witness: the theorem applied to `Hi (name)` with an empty
configuration. -/
theorem c2_fail_lists_all_missing_witness :
    (([toChars "name"].any fun t =>
      isMissingValue (getNestedValue (JSValue.obj []) t)) = true) ∧
    replaceTokens (toChars "Hi \x7b\x7bname\x7d\x7d") (JSValue.obj [])
        (some [toChars "name"]) .fail (toChars "[MISSING]") =
      .error (toChars "Token replacement failed:" ++
        Char.ofNat 10 :: joinWith [Char.ofNat 10]
          (([toChars "name"].filter fun t =>
            isMissingValue (getNestedValue (JSValue.obj []) t)).map
            msgNotFound)) :=
  ⟨by decide,
   (c2_fail_lists_all_missing (toChars "Hi \x7b\x7bname\x7d\x7d") (JSValue.obj [])
     [toChars "name"] (toChars "[MISSING]") (by decide)).1⟩

/-- The bookkeeping invariant of a batch record: the counters mirror the
two result lists and the flag mirrors emptiness of the failure list. -/
def BatchInv (b : BatchResult) : Prop :=
  b.summary.successful = b.processed.length ∧
  b.summary.failed = b.failed.length ∧
  (b.success = true ↔ b.failed = [])

/-- One batch step preserves the invariant, keeps `total`, and grows the
two lists by exactly one entry in total. -/
theorem batchStep_inv (fs : FileSys) (cfg : JSValue) (opts : ProcOptions)
    (b : BatchResult) (c : Cache) (p : Str) (h : BatchInv b) :
    BatchInv (processBatchStep fs cfg opts (b, c) p).1 ∧
    (processBatchStep fs cfg opts (b, c) p).1.summary.total = b.summary.total ∧
    (processBatchStep fs cfg opts (b, c) p).1.processed.length +
        (processBatchStep fs cfg opts (b, c) p).1.failed.length =
      b.processed.length + b.failed.length + 1 := by
  obtain ⟨h1, h2, h3⟩ := h
  simp only [processBatchStep]
  by_cases hr : (processTemplate fs c p cfg opts).1.success = true
  · rw [if_pos hr]
    refine ⟨⟨?_, ?_, ?_⟩, ?_, ?_⟩
    · simp [h1]
    · simp [h2]
    · simpa using h3
    · rfl
    · simp only [List.length_append, List.length_cons, List.length_nil]
      omega
  · rw [if_neg hr]
    refine ⟨⟨?_, ?_, ?_⟩, ?_, ?_⟩
    · simp [h1]
    · simp [h2]
    · simp
    · rfl
    · simp only [List.length_append, List.length_cons, List.length_nil]
      omega

/-- Folding batch steps over any path list preserves the invariant and
adds one list entry per path. -/
theorem batchFold_inv (fs : FileSys) (cfg : JSValue) (opts : ProcOptions) :
    ∀ (paths : List Str) (b : BatchResult) (c : Cache), BatchInv b →
      BatchInv (paths.foldl (processBatchStep fs cfg opts) (b, c)).1 ∧
      (paths.foldl (processBatchStep fs cfg opts) (b, c)).1.summary.total =
        b.summary.total ∧
      (paths.foldl (processBatchStep fs cfg opts) (b, c)).1.processed.length +
          (paths.foldl (processBatchStep fs cfg opts) (b, c)).1.failed.length =
        b.processed.length + b.failed.length + paths.length := by
  intro paths
  induction paths with
  | nil => intro b c h; exact ⟨h, rfl, by simp⟩
  | cons p ps ih =>
    intro b c h
    obtain ⟨hstep, htot, hcount⟩ := batchStep_inv fs cfg opts b c p h
    simp only [List.foldl_cons]
    obtain ⟨ih1, ih2, ih3⟩ :=
      ih (processBatchStep fs cfg opts (b, c) p).1
        (processBatchStep fs cfg opts (b, c) p).2 hstep
    refine ⟨by simpa using ih1, by simp at ih2 ⊢; omega, ?_⟩
    simp only [List.length_cons] at ih3 ⊢
    simp at ih3 ⊢
    omega

/-- C3: every input of `processMultipleTemplates` is attempted: each
input contributes exactly one entry to `processed` or `failed`, the
counters mirror those lists, `summary.total` is the number of inputs,
`successful + failed = total`, and the batch flag is true exactly when
the failure list is empty; three inputs whose middle path is unreadable
yield total 3, successful 2, failed 1 and a false flag. -/
theorem c3_batch_isolation :
    (∀ (fs : FileSys) (cache : Cache) (paths : List Str) (cfg : JSValue)
        (opts : ProcOptions),
      (processMultipleTemplates fs cache paths cfg opts).1.summary.total =
          paths.length ∧
      (processMultipleTemplates fs cache paths cfg opts).1.summary.successful +
          (processMultipleTemplates fs cache paths cfg opts).1.summary.failed =
        paths.length ∧
      (processMultipleTemplates fs cache paths cfg opts).1.summary.successful =
        (processMultipleTemplates fs cache paths cfg opts).1.processed.length ∧
      (processMultipleTemplates fs cache paths cfg opts).1.summary.failed =
        (processMultipleTemplates fs cache paths cfg opts).1.failed.length ∧
      ((processMultipleTemplates fs cache paths cfg opts).1.success = true ↔
        (processMultipleTemplates fs cache paths cfg opts).1.failed = [])) ∧
    ((processMultipleTemplates
      [(toChars "a.html", (toChars "hello", 1)), (toChars "c.html", (toChars "world", 1))]
      [] [toChars "a.html", toChars "b.html", toChars "c.html"] (JSValue.obj [])
      ⟨.warn, toChars "[MISSING]", false, false, false, true⟩).1.summary.total = 3 ∧
    (processMultipleTemplates
      [(toChars "a.html", (toChars "hello", 1)), (toChars "c.html", (toChars "world", 1))]
      [] [toChars "a.html", toChars "b.html", toChars "c.html"] (JSValue.obj [])
      ⟨.warn, toChars "[MISSING]", false, false, false, true⟩).1.summary.successful = 2 ∧
    (processMultipleTemplates
      [(toChars "a.html", (toChars "hello", 1)), (toChars "c.html", (toChars "world", 1))]
      [] [toChars "a.html", toChars "b.html", toChars "c.html"] (JSValue.obj [])
      ⟨.warn, toChars "[MISSING]", false, false, false, true⟩).1.summary.failed = 1 ∧
    (processMultipleTemplates
      [(toChars "a.html", (toChars "hello", 1)), (toChars "c.html", (toChars "world", 1))]
      [] [toChars "a.html", toChars "b.html", toChars "c.html"] (JSValue.obj [])
      ⟨.warn, toChars "[MISSING]", false, false, false, true⟩).1.success = false) := by
  constructor
  · intro fs cache paths cfg opts
    have hinv : BatchInv ⟨true, [], [], ⟨paths.length, 0, 0⟩, [], [], []⟩ := by
      refine ⟨rfl, rfl, ?_⟩
      simp
    obtain ⟨⟨h1, h2, h3⟩, htot, hcount⟩ :=
      batchFold_inv fs cfg opts paths ⟨true, [], [], ⟨paths.length, 0, 0⟩, [], [], []⟩
        cache hinv
    simp only [processMultipleTemplates]
    refine ⟨by simpa using htot, ?_, h1, h2, h3⟩
    simp at hcount
    omega
  · exact ⟨by decide, by decide, by decide, by decide⟩

/-- Update (or create) a file with new content and modification time. -/
def fsSet : FileSys → Str → Str × Nat → FileSys
  | [], p, e => [(p, e)]
  | (k, v) :: rest, p, e =>
    if k = p then (k, e) :: rest else (k, v) :: fsSet rest p e

/-- The cache-consistency invariant: every cache entry whose stored mtime
matches the file's current mtime holds exactly the tokens of the file's
current content. -/
def CacheInv (fs : FileSys) (cache : Cache) : Prop :=
  ∀ (p : Str) (tl : List Str) (mt : Nat) (c : Str) (m : Nat),
    (p, (tl, mt)) ∈ cache → fsGet fs p = some (c, m) → m = mt →
    tl = extractTokens c

/-- The system steps around the extractor cache: a `getCachedTokens` call,
an external file modification (which changes the modification time, so the
new time matches no cached entry for that path), and the two
cache-clearing operations. -/
inductive SysStep : FileSys × Cache → FileSys × Cache → Prop where
  | access (fs : FileSys) (cache : Cache) (p : Str) :
      SysStep (fs, cache) (fs, (getCachedTokens fs cache p).2)
  | modify (fs : FileSys) (cache : Cache) (p : Str) (c : Str) (m : Nat)
      (hfresh : ∀ tl mt, (p, (tl, mt)) ∈ cache → m ≠ mt) :
      SysStep (fs, cache) (fsSet fs p (c, m), cache)
  | clearAll (fs : FileSys) (cache : Cache) :
      SysStep (fs, cache) (fs, [])
  | clearOne (fs : FileSys) (cache : Cache) (p : Str) :
      SysStep (fs, cache) (fs, cacheDel cache p)

/-- A successful lookup is a membership. -/
theorem cacheGet_mem (cache : Cache) (p : Str) (e : List Str × Nat)
    (h : cacheGet cache p = some e) : (p, e) ∈ cache := by
  induction cache with
  | nil => simp [cacheGet] at h
  | cons kv rest ih =>
    obtain ⟨k, v⟩ := kv
    by_cases hk : k = p
    · subst hk
      rw [cacheGet, if_pos rfl] at h
      simp [Option.some_inj.mp h]
    · rw [cacheGet, if_neg hk] at h
      simp [ih h]

/-- Every entry after `cacheSet` is the written pair or an old entry. -/
theorem mem_cacheSet (cache : Cache) (p q : Str) (e e' : List Str × Nat)
    (h : (q, e') ∈ cacheSet cache p e) :
    (q = p ∧ e' = e) ∨ (q, e') ∈ cache := by
  induction cache with
  | nil =>
    simp only [cacheSet, List.mem_singleton] at h
    exact Or.inl ⟨congrArg Prod.fst h, congrArg Prod.snd h⟩
  | cons kv rest ih =>
    obtain ⟨k, v⟩ := kv
    simp only [cacheSet] at h
    by_cases hk : k = p
    · rw [if_pos hk] at h
      rcases List.mem_cons.mp h with h1 | h1
      · exact Or.inl ⟨hk ▸ congrArg Prod.fst h1, congrArg Prod.snd h1⟩
      · exact Or.inr (List.mem_cons_of_mem _ h1)
    · rw [if_neg hk] at h
      rcases List.mem_cons.mp h with h1 | h1
      · exact Or.inr (List.mem_cons.mpr (Or.inl h1))
      · rcases ih h1 with h2 | h2
        · exact Or.inl h2
        · exact Or.inr (List.mem_cons_of_mem _ h2)

/-- Deletion only removes entries. -/
theorem mem_cacheDel (cache : Cache) (p : Str) (x : Str × (List Str × Nat))
    (h : x ∈ cacheDel cache p) : x ∈ cache := by
  induction cache with
  | nil => simpa [cacheDel] using h
  | cons kv rest ih =>
    obtain ⟨k, v⟩ := kv
    by_cases hk : k = p
    · rw [cacheDel, if_pos hk] at h
      exact List.mem_cons_of_mem _ h
    · rw [cacheDel, if_neg hk] at h
      rcases List.mem_cons.mp h with h2 | h2
      · simp [h2]
      · exact List.mem_cons_of_mem _ (ih h2)


/-- Lookup after `fsSet` at another key. -/
theorem fsGet_set_ne (fs : FileSys) (p q : Str) (e : Str × Nat) (h : q ≠ p) :
    fsGet (fsSet fs p e) q = fsGet fs q := by
  induction fs with
  | nil =>
    simp only [fsSet, fsGet]
    rw [if_neg (fun hh => h hh.symm)]
  | cons kv rest ih =>
    obtain ⟨k, v⟩ := kv
    simp only [fsSet]
    by_cases hk : k = p
    · rw [if_pos hk]
      simp only [fsGet]
      rw [if_neg (fun hh : k = q => h (hk ▸ hh.symm)),
        if_neg (fun hh : k = q => h (hk ▸ hh.symm))]
    · rw [if_neg hk]
      simp only [fsGet, ih]

/-- Lookup after `fsSet` at the written key. -/
theorem fsGet_set_self (fs : FileSys) (p : Str) (e : Str × Nat) :
    fsGet (fsSet fs p e) p = some e := by
  induction fs with
  | nil => simp [fsSet, fsGet]
  | cons kv rest ih =>
    obtain ⟨k, v⟩ := kv
    by_cases hk : k = p
    · simp [fsSet, fsGet, hk]
    · simp [fsSet, fsGet, hk, ih]

/-- Lookup after `cacheSet` at the written key. -/
theorem cacheGet_set_self (cache : Cache) (p : Str) (e : List Str × Nat) :
    cacheGet (cacheSet cache p e) p = some e := by
  induction cache with
  | nil => simp [cacheSet, cacheGet]
  | cons kv rest ih =>
    obtain ⟨k, v⟩ := kv
    by_cases hk : k = p
    · simp [cacheSet, cacheGet, hk]
    · simp [cacheSet, cacheGet, hk, ih]

/-- The fresh read-and-cache block is consistent: it returns the tokens of
the current content and preserves the invariant. -/
theorem readAndCacheTokens_inv (fs : FileSys) (cache : Cache) (p : Str)
    (c : Str) (m : Nat) (hinv : CacheInv fs cache)
    (hfs : fsGet fs p = some (c, m)) :
    (readAndCacheTokens fs cache p).1 = .ok (extractTokens c) ∧
    CacheInv fs (readAndCacheTokens fs cache p).2 := by
  refine ⟨by simp [readAndCacheTokens, hfs], ?_⟩
  simp only [readAndCacheTokens, hfs]
  intro q tl mt c' m' hmem hfs' heq
  rcases mem_cacheSet cache p q (extractTokens c, m) (tl, mt) hmem with h1 | h1
  · obtain ⟨hqp, he⟩ := h1
    subst hqp
    rw [hfs] at hfs'
    have hc : c = c' := congrArg Prod.fst (Option.some_inj.mp hfs')
    have ht : tl = extractTokens c := congrArg Prod.fst he
    rw [ht, hc]
  · exact hinv q tl mt c' m' h1 hfs' heq

/-- C8: `getCachedTokens` never returns a stale entry.  (a) If the file's
mtime differs from the cached one the file is re-read: the fresh token
list is returned and re-cached with the new mtime.  (b) Under the cache
invariant the returned list always equals a fresh `extractTokens` of the
current content.  (c) Every system step — accesses, modifications that
change the timestamp, cache clears — preserves the invariant. -/
theorem c8_cache_never_stale :
    (∀ (fs : FileSys) (cache : Cache) (p : Str) (tl : List Str) (mt : Nat)
        (c : Str) (m : Nat),
      cacheGet cache p = some (tl, mt) → fsGet fs p = some (c, m) → m ≠ mt →
      (getCachedTokens fs cache p).1 = .ok (extractTokens c) ∧
      cacheGet (getCachedTokens fs cache p).2 p = some (extractTokens c, m)) ∧
    (∀ (fs : FileSys) (cache : Cache) (p : Str) (c : Str) (m : Nat),
      CacheInv fs cache → fsGet fs p = some (c, m) →
      (getCachedTokens fs cache p).1 = .ok (extractTokens c)) ∧
    (∀ s s' : FileSys × Cache,
      CacheInv s.1 s.2 → SysStep s s' → CacheInv s'.1 s'.2) := by
  refine ⟨?_, ?_, ?_⟩
  · intro fs cache p tl mt c m hcache hfs hne
    simp only [getCachedTokens, hcache, hfs, if_neg hne, readAndCacheTokens]
    exact ⟨by trivial, cacheGet_set_self cache p (extractTokens c, m)⟩
  · intro fs cache p c m hinv hfs
    simp only [getCachedTokens]
    cases hcache : cacheGet cache p with
    | none => exact (readAndCacheTokens_inv fs cache p c m hinv hfs).1
    | some e =>
      obtain ⟨tl, mt⟩ := e
      rw [hfs]
      dsimp only
      by_cases heq : m = mt
      · rw [if_pos heq]
        have := hinv p tl mt c m (cacheGet_mem cache p (tl, mt) hcache) hfs heq
        rw [this]
      · rw [if_neg heq]
        exact (readAndCacheTokens_inv fs cache p c m hinv hfs).1
  · intro s s' hinv hstep
    cases hstep with
    | access fs cache p =>
      simp only [getCachedTokens]
      cases hcache : cacheGet cache p with
      | none =>
        cases hfs : fsGet fs p with
        | none => simpa [readAndCacheTokens, hfs] using hinv
        | some cm =>
          exact (readAndCacheTokens_inv fs cache p cm.1 cm.2 hinv (by simpa using hfs)).2
      | some e =>
        obtain ⟨tl, mt⟩ := e
        cases hfs : fsGet fs p with
        | none =>
          intro q tl' mt' c' m' hmem hfs' heq
          exact hinv q tl' mt' c' m' (mem_cacheDel cache p _ hmem) hfs' heq
        | some cm =>
          by_cases heq : cm.2 = mt
          · simpa [heq] using hinv
          · have h2 := (readAndCacheTokens_inv fs cache p cm.1 cm.2 hinv
              (by simpa using hfs)).2
            simpa [heq] using h2
    | modify fs cache p c m hfresh =>
      intro q tl mt c' m' hmem hfs heq
      by_cases hqp : q = p
      · subst hqp
        rw [fsGet_set_self] at hfs
        have hm : m = m' := congrArg Prod.snd (Option.some_inj.mp hfs)
        exact absurd (hm.trans heq) (hfresh tl mt hmem)
      · rw [fsGet_set_ne fs p q (c, m) hqp] at hfs
        exact hinv q tl mt c' m' hmem hfs heq
    | clearAll fs cache =>
      intro q tl mt c' m' hmem
      simp at hmem
    | clearOne fs cache p =>
      intro q tl mt c' m' hmem hfs heq
      exact hinv q tl mt c' m' (mem_cacheDel cache p _ hmem) hfs heq

/-- C8 witness: the three parts applied at concrete states. -/
theorem c8_cache_never_stale_witness :
    (cacheGet [(toChars "t.html", ([toChars "old"], 1))] (toChars "t.html") =
      some ([toChars "old"], 1) ∧
    fsGet [(toChars "t.html", (toChars "Hi \x7b\x7bname\x7d\x7d", 2))]
      (toChars "t.html") = some (toChars "Hi \x7b\x7bname\x7d\x7d", 2) ∧
    (2 : Nat) ≠ 1 ∧
    (getCachedTokens [(toChars "t.html", (toChars "Hi \x7b\x7bname\x7d\x7d", 2))]
      [(toChars "t.html", ([toChars "old"], 1))] (toChars "t.html")).1 =
      .ok (extractTokens (toChars "Hi \x7b\x7bname\x7d\x7d"))) ∧
    (CacheInv [(toChars "t.html", (toChars "Hi \x7b\x7bname\x7d\x7d", 2))] [] ∧
    (getCachedTokens [(toChars "t.html", (toChars "Hi \x7b\x7bname\x7d\x7d", 2))]
      [] (toChars "t.html")).1 =
      .ok (extractTokens (toChars "Hi \x7b\x7bname\x7d\x7d"))) ∧
    CacheInv [(toChars "t.html", (toChars "Hi \x7b\x7bname\x7d\x7d", 2))] [] := by
  have hinv : CacheInv [(toChars "t.html", (toChars "Hi \x7b\x7bname\x7d\x7d", 2))] [] := by
    intro q tl mt c' m' hmem
    simp at hmem
  refine ⟨⟨by decide, by decide, by decide, ?_⟩, ⟨hinv, ?_⟩, ?_⟩
  · exact (c8_cache_never_stale.1 _ _ _ [toChars "old"] 1 _ 2 (by decide)
      (by decide) (by decide)).1
  · exact c8_cache_never_stale.2.1 _ _ _ _ 2 hinv (by decide)
  · exact c8_cache_never_stale.2.2
      ([(toChars "t.html", (toChars "Hi \x7b\x7bname\x7d\x7d", 2))], [])
      ([(toChars "t.html", (toChars "Hi \x7b\x7bname\x7d\x7d", 2))], []) hinv
      (SysStep.clearAll _ _)

/-- Characters whose compiled-regex meaning is captured exactly by
`tokenPat`: the wildcard `.` and every character that is neither in the
`escapeRegex` class nor a `]`. -/
def safeNameChar (c : Char) : Bool :=
  c = '.' || (!(escClass c) && !(c = ']'))

/-- A plain token name: nonempty, made of safe characters, and trimmed
(no leading or trailing whitespace) as extraction produces it. -/
def safeName (n : Str) : Bool :=
  !(n.isEmpty) && n.all safeNameChar &&
  (match n.head? with | some c => !(wsChar c) | none => false) &&
  (match n.reverse.head? with | some d => !(wsChar d) | none => false)

/-- A replacement-safe character: no braces (which could form new
markers) and no dollar (which `String.replace` expands). -/
def safeValChar (c : Char) : Bool :=
  !(c = obrace) && !(c = cbrace) && !(c = dollarChar)

/-- A replacement-safe resolved value. -/
def safeVal (v : Str) : Bool := v.all safeValChar

/-- Safe name characters are not braces, backslash or whitespace-critical
regex parts. -/
theorem safeNameChar_not (c : Char) (h : safeNameChar c = true) :
    c ≠ obrace ∧ c ≠ cbrace ∧ c ≠ '\\' := by
  simp only [safeNameChar, Bool.or_eq_true, Bool.and_eq_true,
    Bool.not_eq_true', decide_eq_true_eq] at h
  rcases h with h | ⟨h1, h2⟩
  · subst h
    refine ⟨by decide, by decide, by decide⟩
  · refine ⟨?_, ?_, ?_⟩ <;> intro hc <;> subst hc <;>
      simp [escClass] at h1

/-- `escapeRegex` is the identity on backslash-free strings (its regex
needs two literal backslashes to match). -/
theorem escapeRegexJSF_nb :
    ∀ (fuel : Nat) (s : Str), s.length ≤ fuel → (∀ c ∈ s, c ≠ '\\') →
      escapeRegexJSF fuel s = s := by
  intro fuel
  induction fuel with
  | zero =>
    intro s hl _
    have : s = [] := List.eq_nil_of_length_eq_zero (Nat.le_zero.mp hl)
    subst this; rfl
  | succ fuel ih =>
    intro s hl hnb
    rcases s with _ | ⟨c, _ | ⟨b1, _ | ⟨b2, _ | ⟨br, rest2⟩⟩⟩⟩
    · rfl
    · show c :: escapeRegexJSF fuel [] = [c]
      rw [ih [] (by simp) (by simp)]
    · show c :: escapeRegexJSF fuel [b1] = [c, b1]
      rw [ih [b1] (by simp at hl ⊢; omega)
        (fun x hx => hnb x (List.mem_cons_of_mem _ hx))]
    · show c :: escapeRegexJSF fuel [b1, b2] = [c, b1, b2]
      rw [ih [b1, b2] (by simp at hl ⊢; omega)
        (fun x hx => hnb x (List.mem_cons_of_mem _ hx))]
    · show escapeRegexJSF (fuel + 1) (c :: b1 :: b2 :: br :: rest2) = _
      have hb1 : b1 ≠ '\\' := hnb b1 (by simp)
      simp only [escapeRegexJSF]
      rw [if_neg (by intro hcond; exact hb1 hcond.2.1)]
      have := ih (b1 :: b2 :: br :: rest2)
        (by simp at hl ⊢; omega)
        (fun x hx => hnb x (List.mem_cons_of_mem _ hx))
      rw [this]

/-- `escapeRegexJS` is the identity on backslash-free strings. -/
theorem escapeRegexJS_id (s : Str) (hnb : ∀ c ∈ s, c ≠ '\\') :
    escapeRegexJS s = s :=
  escapeRegexJSF_nb s.length s (Nat.le_refl _) hnb

/-- For a safe name, the compiled token pattern is the name itself with
`.` read as a wildcard. -/
theorem tokenPat_safe (t : Str) (h : ∀ c ∈ t, safeNameChar c = true) :
    tokenPat t =
      t.map (fun c => if c = '.' then PatChar.wild else PatChar.lit c) := by
  unfold tokenPat
  rw [escapeRegexJS_id t (fun c hc => (safeNameChar_not c (h c hc)).2.2)]

/-- The compiled pattern of a safe name matches the literal name. -/
theorem matchPat_self (t : Str) (h : ∀ c ∈ t, safeNameChar c = true) :
    ∀ rest : Str,
      matchPat
        (t.map (fun c => if c = '.' then PatChar.wild else PatChar.lit c))
        (t ++ rest) = some rest := by
  induction t with
  | nil => intro rest; rfl
  | cons c cs ih =>
    intro rest
    by_cases hdot : c = '.'
    · subst hdot
      simp only [List.map_cons, if_pos rfl, List.cons_append, matchPat]
      rw [if_neg (by decide)]
      exact ih (fun x hx => h x (List.mem_cons_of_mem _ hx)) rest
    · simp only [List.map_cons, if_neg hdot, List.cons_append, matchPat,
        if_pos rfl]
      exact ih (fun x hx => h x (List.mem_cons_of_mem _ hx)) rest

/-- A pattern match consumes exactly `p.length` characters. -/
theorem matchPat_decomp :
    ∀ (p : List PatChar) (s s2 : Str), matchPat p s = some s2 →
      ∃ D, s = D ++ s2 ∧ D.length = p.length := by
  intro p
  induction p with
  | nil =>
    intro s s2 h
    exact ⟨[], by simpa [matchPat] using Option.some_inj.mp h, rfl⟩
  | cons pc ps ih =>
    intro s s2 h
    cases s with
    | nil => exact absurd h (by cases pc <;> simp [matchPat])
    | cons x xs =>
      cases pc with
      | lit c =>
        simp only [matchPat] at h
        by_cases hx : x = c
        · rw [if_pos hx] at h
          obtain ⟨D, hD, hlen⟩ := ih xs s2 h
          exact ⟨x :: D, by simp [hD], by simp [hlen]⟩
        · rw [if_neg hx] at h
          exact absurd h (by simp)
      | wild =>
        simp only [matchPat] at h
        by_cases hx : lineTerm x = true
        · rw [if_pos hx] at h
          exact absurd h (by simp)
        · rw [if_neg hx] at h
          obtain ⟨D, hD, hlen⟩ := ih xs s2 h
          exact ⟨x :: D, by simp [hD], by simp [hlen]⟩

/-- `takeWhile` over a whitespace run stopped by a non-whitespace head. -/
theorem takeWhile_ws_append (w : Str) (x : Char) (rest : Str)
    (hw : ∀ c ∈ w, wsChar c = true) (hx : wsChar x = false) :
    (w ++ x :: rest).takeWhile wsChar = w := by
  induction w with
  | nil => simp [List.takeWhile, hx]
  | cons c cs ih =>
    simp only [List.cons_append, List.takeWhile, hw c (by simp),
      List.append_eq]
    rw [ih (fun d hd => hw d (List.mem_cons_of_mem _ hd))]

/-- `wsCount` over a whitespace run stopped by a non-whitespace head. -/
theorem wsCount_ws_append (w : Str) (x : Char) (rest : Str)
    (hw : ∀ c ∈ w, wsChar c = true) (hx : wsChar x = false) :
    wsCount (w ++ x :: rest) = w.length := by
  unfold wsCount
  rw [takeWhile_ws_append w x rest hw hx]

/-- A hit at the tried length propagates through `tryFrom`. -/
theorem tryFrom_self (f : Nat → Option Nat) (k r : Nat) (h : f k = some r) :
    tryFrom f k = some r := by
  cases k <;> simp [tryFrom, h]

/-- A `tryFrom` hit comes from some tried length. -/
theorem tryFrom_inv (f : Nat → Option Nat) :
    ∀ (k r : Nat), tryFrom f k = some r → ∃ j, j ≤ k ∧ f j = some r := by
  intro k
  induction k with
  | zero => intro r h; exact ⟨0, Nat.le_refl _, h⟩
  | succ k ih =>
    intro r h
    rw [tryFrom] at h
    cases hf : f (k + 1) with
    | some r2 =>
      rw [hf] at h
      exact ⟨k + 1, Nat.le_refl _, hf.trans (congrArg _ (Option.some_inj.mp h))⟩
    | none =>
      rw [hf] at h
      obtain ⟨j, hj, hfj⟩ := ih r h
      exact ⟨j, Nat.le_succ_of_le hj, hfj⟩

/-- The components of a safe name. -/
theorem safeName_parts (n : Str) (h : safeName n = true) :
    n ≠ [] ∧ (∀ c ∈ n, safeNameChar c = true) ∧
    (∀ c cs, n = c :: cs → wsChar c = false) ∧
    (∀ d ds, n.reverse = d :: ds → wsChar d = false) := by
  simp only [safeName, Bool.and_eq_true] at h
  obtain ⟨⟨⟨h1, h2⟩, h3⟩, h4⟩ := h
  refine ⟨by simpa using h1, by simpa using h2, ?_, ?_⟩
  · intro c cs hn
    subst hn
    simpa using h3
  · intro d ds hn
    rw [hn] at h4
    simpa using h4

/-- The token pattern of a safe name matches its own marker exactly:
first whitespace run, the literal name, second whitespace run, `}}`. -/
theorem matchMarker_at_marker (t w1 w2 rest : Str)
    (hname : safeName t = true)
    (hw1 : ∀ c ∈ w1, wsChar c = true) (hw2 : ∀ c ∈ w2, wsChar c = true) :
    matchMarker (tokenPat t) (w1 ++ t ++ w2 ++ cbrace :: cbrace :: rest) =
      some (w1.length + t.length + w2.length + 2) := by
  obtain ⟨hne, hall, hhead, _⟩ := safeName_parts t hname
  obtain ⟨c, cs, hct⟩ : ∃ c cs, t = c :: cs := by
    cases t with
    | nil => exact absurd rfl hne
    | cons c cs => exact ⟨c, cs, rfl⟩
  have hws : wsChar c = false := hhead c cs hct
  have hcount : wsCount (w1 ++ t ++ w2 ++ cbrace :: cbrace :: rest) =
      w1.length := by
    rw [hct]
    have hassoc : w1 ++ (c :: cs) ++ w2 ++ cbrace :: cbrace :: rest =
        w1 ++ c :: (cs ++ w2 ++ cbrace :: cbrace :: rest) := by simp
    rw [hassoc, wsCount_ws_append w1 c _ hw1 hws]
  unfold matchMarker
  rw [hcount]
  apply tryFrom_self
  have hdrop : (w1 ++ t ++ w2 ++ cbrace :: cbrace :: rest).drop w1.length =
      t ++ (w2 ++ cbrace :: cbrace :: rest) := by
    have hassoc : w1 ++ t ++ w2 ++ cbrace :: cbrace :: rest =
        w1 ++ (t ++ (w2 ++ cbrace :: cbrace :: rest)) := by simp
    rw [hassoc, List.drop_left]
  show (fun k =>
      match matchPat (tokenPat t)
          ((w1 ++ t ++ w2 ++ cbrace :: cbrace :: rest).drop k) with
      | none => none
      | some s2 =>
        let j := wsCount s2
        match s2.drop j with
        | d1 :: d2 :: _ =>
          if d1 = cbrace ∧ d2 = cbrace then
            some (k + (tokenPat t).length + j + 2)
          else none
        | _ => none) w1.length = _
  simp only [hdrop, tokenPat_safe t hall, matchPat_self t hall]
  have hcount2 : wsCount (w2 ++ cbrace :: cbrace :: rest) = w2.length :=
    wsCount_ws_append w2 cbrace _ hw2 (by decide)
  simp only [hcount2, List.drop_left, List.length_map]
  simp

/-- A successful marker match consumes through a literal `}}`. -/
theorem matchMarker_decomp (p : List PatChar) (s : Str) (n : Nat)
    (h : matchMarker p s = some n) :
    ∃ A tail, s = A ++ cbrace :: cbrace :: tail ∧ n = A.length + 2 ∧
      s.drop n = tail := by
  unfold matchMarker at h
  obtain ⟨k, hk, hfk⟩ := tryFrom_inv _ _ _ h
  cases hmp : matchPat p (s.drop k) with
  | none => rw [hmp] at hfk; exact absurd hfk (by simp)
  | some s2 =>
    rw [hmp] at hfk
    dsimp only at hfk
    cases hdrop : s2.drop (wsCount s2) with
    | nil => rw [hdrop] at hfk; exact absurd hfk (by simp)
    | cons d1 tl =>
      cases tl with
      | nil => rw [hdrop] at hfk; exact absurd hfk (by simp)
      | cons d2 tail =>
        rw [hdrop] at hfk
        dsimp only at hfk
        by_cases hcb : d1 = cbrace ∧ d2 = cbrace
        · rw [if_pos hcb] at hfk
          obtain ⟨hd1, hd2⟩ := hcb
          subst hd1; subst hd2
          have hn : n = k + p.length + wsCount s2 + 2 :=
            (Option.some_inj.mp hfk).symm
          obtain ⟨D, hD, hDlen⟩ := matchPat_decomp p (s.drop k) s2 hmp
          have hwsle : wsCount s ≤ s.length :=
            (List.takeWhile_prefix wsChar).length_le
          have hks : k ≤ s.length := le_trans hk hwsle
          have hws2 : wsCount s2 ≤ s2.length :=
            (List.takeWhile_prefix wsChar).length_le
          refine ⟨s.take k ++ D ++ s2.take (wsCount s2), tail, ?_, ?_, ?_⟩
          · calc s = s.take k ++ s.drop k := (List.take_append_drop k s).symm
            _ = s.take k ++ (D ++ s2) := by rw [hD]
            _ = s.take k ++ (D ++ (s2.take (wsCount s2) ++ s2.drop (wsCount s2))) := by
                rw [List.take_append_drop]
            _ = s.take k ++ D ++ s2.take (wsCount s2) ++ cbrace :: cbrace :: tail := by
                rw [hdrop]; simp
          · have h1 : (s.take k).length = k := by
              rw [List.length_take]
              omega
            have h2 : (s2.take (wsCount s2)).length = wsCount s2 := by
              rw [List.length_take]
              omega
            simp only [List.length_append, h1, h2, hDlen, hn]
          · have hslen : s = (s.take k ++ D ++ s2.take (wsCount s2) ++ [cbrace, cbrace]) ++ tail := by
              calc s = s.take k ++ s.drop k := (List.take_append_drop k s).symm
              _ = s.take k ++ (D ++ s2) := by rw [hD]
              _ = s.take k ++ (D ++ (s2.take (wsCount s2) ++ s2.drop (wsCount s2))) := by
                  rw [List.take_append_drop]
              _ = (s.take k ++ D ++ s2.take (wsCount s2) ++ [cbrace, cbrace]) ++ tail := by
                  rw [hdrop]; simp
            rw [hslen, List.drop_left']
            have h1 : (s.take k).length = k := by
              rw [List.length_take]; omega
            have h2 : (s2.take (wsCount s2)).length = wsCount s2 := by
              rw [List.length_take]; omega
            simp only [List.length_append, h1, h2, hDlen, List.length_cons,
              List.length_nil, hn]
        · rw [if_neg hcb] at hfk
          exact absurd hfk (by simp)

/-- Replacement scan: a non-`{` head is copied. -/
theorem scanRepl_copy (p : List PatChar) (r b : Str) (c : Char) (s : Str)
    (hc : c ≠ obrace) :
    scanRepl p r b (c :: s) = c :: scanRepl p r (b ++ [c]) s := by
  simp only [scanRepl, List.length_cons, scanReplF, if_neg hc]

/-- Replacement scan: a trailing single `{` is copied. -/
theorem scanRepl_single_obrace (p : List PatChar) (r b : Str) :
    scanRepl p r b [obrace] = [obrace] := rfl

/-- Replacement scan: `{` not followed by `{` is copied. -/
theorem scanRepl_obrace_other (p : List PatChar) (r b : Str) (c2 : Char)
    (rest2 : Str) (hc2 : c2 ≠ obrace) :
    scanRepl p r b (obrace :: c2 :: rest2) =
      obrace :: scanRepl p r (b ++ [obrace]) (c2 :: rest2) := by
  simp only [scanRepl, List.length_cons, scanReplF, if_pos rfl, if_neg hc2]
  simp

/-- Replacement scan: `{{` whose marker pattern fails is copied one
character at a time. -/
theorem scanRepl_nomatch (p : List PatChar) (r b : Str) (rest2 : Str)
    (hm : matchMarker p rest2 = none) :
    scanRepl p r b (obrace :: obrace :: rest2) =
      obrace :: scanRepl p r (b ++ [obrace]) (obrace :: rest2) := by
  conv_lhs => simp only [scanRepl, List.length_cons]
  conv_rhs => simp only [scanRepl, List.length_cons]
  conv_lhs => rw [scanReplF]
  simp [hm]

/-- Replacement scan: `{{` whose marker pattern matches is replaced by
the expanded replacement, and scanning resumes after the match. -/
theorem scanRepl_match (p : List PatChar) (r b : Str) (rest2 : Str) (n : Nat)
    (hm : matchMarker p rest2 = some n) :
    scanRepl p r b (obrace :: obrace :: rest2) =
      expandRepl b (obrace :: obrace :: rest2.take n) (rest2.drop n) r ++
        scanRepl p r (b ++ obrace :: obrace :: rest2.take n) (rest2.drop n) := by
  have hcongr := scanReplF_congr p r (rest2.length + 1) (rest2.length + 1)
    (rest2.drop n).length (b ++ obrace :: obrace :: rest2.take n) (rest2.drop n)
    (by simp [List.length_drop]; omega) (by simp [List.length_drop]; omega)
    (Nat.le_refl _)
  conv_lhs => simp only [scanRepl, List.length_cons]
  conv_rhs => simp only [scanRepl]
  conv_lhs => rw [scanReplF]
  simp [hm, hcongr]

/-- Replacement scan: a `{`-free prefix is copied verbatim. -/
theorem scanRepl_copy_run (p : List PatChar) (r : Str) :
    ∀ (u b s : Str), (∀ c ∈ u, c ≠ obrace) →
      scanRepl p r b (u ++ s) = u ++ scanRepl p r (b ++ u) s := by
  intro u
  induction u with
  | nil => intro b s _; simp
  | cons c cs ih =>
    intro b s hu
    rw [List.cons_append, scanRepl_copy p r b c (cs ++ s) (hu c (by simp))]
    rw [ih (b ++ [c]) s (fun d hd => hu d (List.mem_cons_of_mem _ hd))]
    simp

/-- Extraction scan: a non-`{` head is skipped. -/
theorem extractScan_skip (c : Char) (s : Str) (hc : c ≠ obrace) :
    extractScan (c :: s) = extractScan s := by
  simp only [extractScan, List.length_cons, extractScanF, if_neg hc]

/-- Extraction scan: a trailing single `{`. -/
theorem extractScan_single_obrace : extractScan [obrace] = [] := rfl

/-- Extraction scan: `{` not followed by `{` is skipped. -/
theorem extractScan_obrace_other (c2 : Char) (rest2 : Str)
    (hc2 : c2 ≠ obrace) :
    extractScan (obrace :: c2 :: rest2) = extractScan (c2 :: rest2) := by
  simp only [extractScan, List.length_cons, extractScanF, if_pos rfl,
    if_neg hc2]
  simp

/-- Extraction scan: a `{`-free prefix contributes nothing. -/
theorem extractScan_skip_run :
    ∀ (u s : Str), (∀ c ∈ u, c ≠ obrace) →
      extractScan (u ++ s) = extractScan s := by
  intro u
  induction u with
  | nil => intro s _; rfl
  | cons c cs ih =>
    intro s hu
    rw [List.cons_append, extractScan_skip c (cs ++ s) (hu c (by simp))]
    exact ih s (fun d hd => hu d (List.mem_cons_of_mem _ hd))

/-- `takeWhile (≠ cbrace)` over a `}`-free run stopped by a `}`. -/
theorem takeWhile_nb (u rest : Str) (hu : ∀ c ∈ u, c ≠ cbrace) :
    (u ++ cbrace :: rest).takeWhile (fun ch => ch ≠ cbrace) = u := by
  induction u with
  | nil => simp [List.takeWhile]
  | cons c cs ih =>
    simp only [List.cons_append, List.takeWhile, List.append_eq]
    have hcd : decide (c ≠ cbrace) = true := by
      simpa using hu c (by simp)
    rw [hcd, ih (fun d hd => hu d (List.mem_cons_of_mem _ hd))]

/-- `dropWhile` over a whitespace run stopped by a non-whitespace head. -/
theorem dropWhile_ws_append (w : Str) (x : Char) (t : Str)
    (hw : ∀ c ∈ w, wsChar c = true) (hx : wsChar x = false) :
    (w ++ x :: t).dropWhile wsChar = x :: t := by
  induction w with
  | nil => simp [List.dropWhile, hx]
  | cons c cs ih =>
    simp only [List.cons_append, List.dropWhile, hw c (by simp)]
    exact ih (fun d hd => hw d (List.mem_cons_of_mem _ hd))

/-- Trimming a whitespace-padded safe name recovers the name. -/
theorem trimStr_marker (w1 n w2 : Str)
    (hw1 : ∀ c ∈ w1, wsChar c = true) (hw2 : ∀ c ∈ w2, wsChar c = true)
    (hn : safeName n = true) :
    trimStr (w1 ++ n ++ w2) = n := by
  obtain ⟨hne, _, hhead, hlast⟩ := safeName_parts n hn
  obtain ⟨c, cs, hct⟩ : ∃ c cs, n = c :: cs := by
    cases n with
    | nil => exact absurd rfl hne
    | cons c cs => exact ⟨c, cs, rfl⟩
  obtain ⟨d, ds, hrev⟩ : ∃ d ds, n.reverse = d :: ds := by
    cases hr : n.reverse with
    | nil => exact absurd (by simpa using congrArg List.reverse hr) hne
    | cons d ds => exact ⟨d, ds, rfl⟩
  have hd : wsChar d = false := hlast d ds hrev
  have hstep1 : (w1 ++ n ++ w2).dropWhile wsChar = n ++ w2 := by
    rw [hct]
    have hassoc : w1 ++ (c :: cs) ++ w2 = w1 ++ c :: (cs ++ w2) := by simp
    rw [hassoc, dropWhile_ws_append w1 c (cs ++ w2) hw1 (hhead c cs hct)]
    simp
  have hstep2 : (n ++ w2).reverse.dropWhile wsChar = n.reverse := by
    rw [List.reverse_append, hrev]
    exact dropWhile_ws_append w2.reverse d ds
      (fun e he => hw2 e (List.mem_reverse.mp he)) hd
  unfold trimStr
  rw [hstep1, hstep2, List.reverse_reverse]

/-- Extraction scan at a well-formed marker: the trimmed name is
extracted and scanning resumes after the `}}`. -/
theorem extractScan_marker (w1 n w2 s : Str)
    (hw1 : ∀ c ∈ w1, wsChar c = true) (hw2 : ∀ c ∈ w2, wsChar c = true)
    (hn : safeName n = true) :
    extractScan (obrace :: obrace :: (w1 ++ n ++ w2 ++ cbrace :: cbrace :: s)) =
      n :: extractScan s := by
  obtain ⟨hne, hall, _, _⟩ := safeName_parts n hn
  have hnb : ∀ c ∈ w1 ++ n ++ w2, c ≠ cbrace := by
    intro c hc
    simp only [List.append_assoc, List.mem_append] at hc
    rcases hc with hc | hc | hc
    · intro he
      subst he
      exact absurd (hw1 _ hc) (by decide)
    · exact (safeNameChar_not c (hall c hc)).2.1
    · intro he
      subst he
      exact absurd (hw2 _ hc) (by decide)
  have hrun : (w1 ++ n ++ w2 ++ cbrace :: cbrace :: s).takeWhile
      (fun ch => ch ≠ cbrace) = w1 ++ n ++ w2 := by
    have hassoc : w1 ++ n ++ w2 ++ cbrace :: cbrace :: s =
        (w1 ++ n ++ w2) ++ cbrace :: (cbrace :: s) := by simp
    rw [hassoc, takeWhile_nb (w1 ++ n ++ w2) (cbrace :: s) hnb]
  have hdrop : (w1 ++ n ++ w2 ++ cbrace :: cbrace :: s).drop
      (w1 ++ n ++ w2).length = cbrace :: cbrace :: s := by
    have hassoc : w1 ++ n ++ w2 ++ cbrace :: cbrace :: s =
        (w1 ++ n ++ w2) ++ cbrace :: cbrace :: s := by simp
    rw [hassoc, List.drop_left]
  have hrunne : w1 ++ n ++ w2 ≠ [] := by
    intro he
    rcases List.append_eq_nil.mp he with ⟨he1, _⟩
    rcases List.append_eq_nil.mp he1 with ⟨_, he2⟩
    exact hne he2
  conv_lhs => simp only [extractScan, List.length_cons]
  conv_lhs => rw [extractScanF]
  simp only [if_pos rfl, hrun, hdrop]
  rw [trimStr_marker w1 n w2 hw1 hw2 hn]
  have hcongr := extractScanF_congr
    ((w1 ++ n ++ w2 ++ cbrace :: cbrace :: s).length + 1)
    ((w1 ++ n ++ w2 ++ cbrace :: cbrace :: s).length + 1) s.length s
    (by simp; omega) (by simp; omega) (Nat.le_refl _)
  rw [hcongr]
  rw [if_pos (And.intro hrunne (And.intro trivial trivial))]
  rfl

/-- Replacement expansion is literal on dollar-free strings. -/
theorem expandReplF_literal (b m a : Str) :
    ∀ (fuel : Nat) (s : Str), s.length ≤ fuel →
      (∀ c ∈ s, c ≠ dollarChar) → expandReplF b m a fuel s = s := by
  intro fuel
  induction fuel with
  | zero =>
    intro s hl _
    have : s = [] := List.eq_nil_of_length_eq_zero (Nat.le_zero.mp hl)
    subst this; rfl
  | succ fuel ih =>
    intro s hl hnd
    cases s with
    | nil => rfl
    | cons c rest =>
      simp only [expandReplF, if_neg (hnd c (by simp))]
      rw [ih rest (by simp at hl; omega)
        (fun x hx => hnd x (List.mem_cons_of_mem _ hx))]

/-- `expandRepl` is literal on dollar-free strings. -/
theorem expandRepl_literal (b m a s : Str) (hnd : ∀ c ∈ s, c ≠ dollarChar) :
    expandRepl b m a s = s :=
  expandReplF_literal b m a s.length s (Nat.le_refl _) hnd

/-- The components of a replacement-safe value. -/
theorem safeVal_parts (v : Str) (h : safeVal v = true) :
    (∀ c ∈ v, c ≠ obrace) ∧ (∀ c ∈ v, c ≠ cbrace) ∧
    (∀ c ∈ v, c ≠ dollarChar) := by
  simp only [safeVal, List.all_eq_true, safeValChar, Bool.and_eq_true,
    Bool.not_eq_true', decide_eq_false_iff_not] at h
  exact ⟨fun c hc => (h c hc).1.1, fun c hc => (h c hc).1.2,
    fun c hc => (h c hc).2⟩

/-- Well-braced template texts: every brace belongs to a complete marker
`{{` ws name ws `}}` with a safe trimmed name; all other characters are
literal. -/
inductive Alt : Str → Prop where
  | nil : Alt []
  | ch (c : Char) (s : Str) (hc1 : c ≠ obrace) (hc2 : c ≠ cbrace)
      (h : Alt s) : Alt (c :: s)
  | marker (w1 n w2 s : Str) (hw1 : ∀ x ∈ w1, wsChar x = true)
      (hn : safeName n = true) (hw2 : ∀ x ∈ w2, wsChar x = true)
      (h : Alt s) :
      Alt (obrace :: obrace :: (w1 ++ n ++ w2 ++ cbrace :: cbrace :: s))

/-- A well-braced text never starts with `}`. -/
theorem Alt_head_ne (s : Str) (h : Alt s) :
    ∀ (c : Char) (s' : Str), s = c :: s' → c ≠ cbrace := by
  cases h with
  | nil => intro c s' he; exact absurd he (by simp)
  | ch c0 s0 hc1 hc2 _ =>
    intro c s' he
    injection he with h1 _
    subst h1; exact hc2
  | marker w1 n w2 s0 _ _ _ _ =>
    intro c s' he
    injection he with h1 _
    subst h1; decide

/-- The interior run of a marker contains no `}`. -/
theorem marker_run_nb (w1 n w2 : Str)
    (hw1 : ∀ c ∈ w1, wsChar c = true) (hw2 : ∀ c ∈ w2, wsChar c = true)
    (hn : safeName n = true) : ∀ c ∈ w1 ++ n ++ w2, c ≠ cbrace := by
  obtain ⟨_, hall, _, _⟩ := safeName_parts n hn
  intro c hc
  simp only [List.append_assoc, List.mem_append] at hc
  rcases hc with hc | hc | hc
  · intro he
    subst he
    exact absurd (hw1 _ hc) (by decide)
  · exact (safeNameChar_not c (hall c hc)).2.1
  · intro he
    subst he
    exact absurd (hw2 _ hc) (by decide)

/-- Splitting a `}`-free run followed by `}}` at an occurrence of `}}`:
the occurrence is that `}}` itself, or lies further right. -/
theorem split_nb (u : Str) :
    ∀ (s A B : Str), (∀ c ∈ u, c ≠ cbrace) →
      (∀ (c : Char) (s' : Str), s = c :: s' → c ≠ cbrace) →
      u ++ cbrace :: cbrace :: s = A ++ cbrace :: cbrace :: B →
      (A = u ∧ B = s) ∨
      (∃ C, s = C ++ cbrace :: cbrace :: B ∧
        A = u ++ cbrace :: cbrace :: C) := by
  induction u with
  | nil =>
    intro s A B _ hhead heq
    cases A with
    | nil =>
      left
      refine ⟨rfl, ?_⟩
      injection heq with _ h2
      injection h2 with _ h3
      exact h3.symm
    | cons a A' =>
      injection heq with h1 h2
      cases A' with
      | nil =>
        injection h2 with h3 h4
        exact absurd rfl (hhead cbrace B h4)
      | cons a2 A'' =>
        injection h2 with h3 h4
        right
        refine ⟨A'', h4, ?_⟩
        rw [← h1, ← h3]
        rfl
  | cons x u' ih =>
    intro s A B hu hhead heq
    cases A with
    | nil =>
      injection heq with h1 _
      exact absurd h1 (hu x (by simp))
    | cons a A' =>
      injection heq with h1 h2
      rcases ih s A' B (fun c hc => hu c (List.mem_cons_of_mem _ hc)) hhead h2
        with ⟨hA, hB⟩ | ⟨C, hC1, hC2⟩
      · left
        refine ⟨?_, hB⟩
        rw [← h1, hA]
      · right
        refine ⟨C, hC1, ?_⟩
        rw [← h1, hC2]
        rfl

/-- Cutting a well-braced text at any `}}` leaves a well-braced tail
whose extracted names all occur in the whole text. -/
theorem alt_ends_split : ∀ (T : Str), Alt T → ∀ (A B : Str),
    T = A ++ cbrace :: cbrace :: B →
    Alt B ∧ ∀ x ∈ extractScan B, x ∈ extractScan T := by
  intro T hT
  induction hT with
  | nil =>
    intro A B he
    exact absurd he (by simp)
  | ch c s hc1 hc2 hAlt ih =>
    intro A B he
    cases A with
    | nil =>
      injection he with h1 _
      exact absurd h1 hc2
    | cons a A' =>
      injection he with h1 h2
      obtain ⟨hB, hsub⟩ := ih A' B h2
      refine ⟨hB, fun x hx => ?_⟩
      rw [extractScan_skip c s hc1]
      exact hsub x hx
  | marker w1 n w2 s hw1 hn hw2 hAlt ih =>
    intro A B he
    cases A with
    | nil =>
      injection he with h1 _
      exact absurd h1 (by decide)
    | cons a A' =>
      injection he with h1 h2
      cases A' with
      | nil =>
        injection h2 with h3 _
        exact absurd h3 (by decide)
      | cons a2 A'' =>
        injection h2 with h3 h4
        have hnbu := marker_run_nb w1 n w2 hw1 hw2 hn
        have hhead := Alt_head_ne s hAlt
        rcases split_nb (w1 ++ n ++ w2) s A'' B hnbu hhead h4
          with ⟨hA, hB⟩ | ⟨C, hC1, hC2⟩
        · refine ⟨by rw [hB]; exact hAlt, fun x hx => ?_⟩
          rw [hB] at hx
          rw [extractScan_marker w1 n w2 s hw1 hw2 hn]
          exact List.mem_cons_of_mem n hx
        · obtain ⟨hB, hsub⟩ := ih C B hC1
          refine ⟨hB, fun x hx => ?_⟩
          rw [extractScan_marker w1 n w2 s hw1 hw2 hn]
          exact List.mem_cons_of_mem n (hsub x hx)

/-- Prepending brace-free characters preserves well-bracedness. -/
theorem alt_prepend : ∀ (u : Str),
    (∀ c ∈ u, c ≠ obrace ∧ c ≠ cbrace) → ∀ (s : Str), Alt s →
    Alt (u ++ s) := by
  intro u
  induction u with
  | nil => intro _ s h; exact h
  | cons c cs ih =>
    intro hu s h
    exact Alt.ch c (cs ++ s) (hu c (by simp)).1 (hu c (by simp)).2
      (ih (fun d hd => hu d (List.mem_cons_of_mem _ hd)) s h)

/-- Every name extracted from a well-braced text is safe. -/
theorem alt_names_safe : ∀ (T : Str), Alt T →
    ∀ x ∈ extractScan T, safeName x = true := by
  intro T hT
  induction hT with
  | nil => intro x hx; simp [extractScan, extractScanF] at hx
  | ch c s hc1 _ hAlt ih =>
    intro x hx
    rw [extractScan_skip c s hc1] at hx
    exact ih x hx
  | marker w1 n w2 s hw1 hn hw2 hAlt ih =>
    intro x hx
    rw [extractScan_marker w1 n w2 s hw1 hw2 hn] at hx
    rcases List.mem_cons.mp hx with h | h
    · subst h; exact hn
    · exact ih x h

/-- Whitespace characters are not braces. -/
theorem wsChar_not_brace (c : Char) (h : wsChar c = true) :
    c ≠ obrace ∧ c ≠ cbrace := by
  constructor <;> intro he <;> subst he <;> exact absurd h (by decide)

/-- The interior run plus closing pair of a marker is `{`-free. -/
theorem marker_run_no_obrace (w1 n w2 : Str)
    (hw1 : ∀ c ∈ w1, wsChar c = true) (hw2 : ∀ c ∈ w2, wsChar c = true)
    (hn : safeName n = true) :
    ∀ c ∈ w1 ++ n ++ w2 ++ [cbrace, cbrace], c ≠ obrace := by
  obtain ⟨_, hall, _, _⟩ := safeName_parts n hn
  intro c hc
  simp only [List.append_assoc, List.mem_append, List.mem_cons,
    List.mem_singleton] at hc
  rcases hc with hc | hc | hc | hc | hc
  · exact (wsChar_not_brace c (hw1 c hc)).1
  · exact (safeNameChar_not c (hall c hc)).1
  · exact (wsChar_not_brace c (hw2 c hc)).1
  · subst hc; decide
  · simp at hc; subst hc; decide

/-- One replacement pass of a safe token over a well-braced text keeps
the text well-braced, never invents new token names, and leaves no
marker of the replaced token. -/
theorem pass_theorem (t v : Str) (hname : safeName t = true)
    (hval : safeVal v = true) :
    ∀ (N : Nat) (T : Str), T.length < N → Alt T → ∀ (b : Str),
      Alt (scanRepl (tokenPat t) v b T) ∧
      (∀ x ∈ extractScan (scanRepl (tokenPat t) v b T),
        x ∈ extractScan T ∧ x ≠ t) := by
  intro N
  induction N with
  | zero => intro T hlen; omega
  | succ N ihN =>
    intro T hlen hAlt b
    cases hAlt with
    | nil =>
      refine ⟨Alt.nil, fun x hx => ?_⟩
      simp [scanRepl, scanReplF, extractScan, extractScanF] at hx
    | ch c s hc1 hc2 hAlt2 =>
      rw [scanRepl_copy _ _ b c s hc1]
      obtain ⟨ih1, ih2⟩ := ihN s (by simp at hlen; omega) hAlt2 (b ++ [c])
      refine ⟨Alt.ch c _ hc1 hc2 ih1, fun x hx => ?_⟩
      rw [extractScan_skip c _ hc1] at hx
      obtain ⟨hx1, hx2⟩ := ih2 x hx
      exact ⟨by rw [extractScan_skip c s hc1]; exact hx1, hx2⟩
    | marker w1 n w2 s hw1 hn hw2 hAlt2 =>
      have hAltT : Alt (obrace :: obrace ::
          (w1 ++ n ++ w2 ++ cbrace :: cbrace :: s)) :=
        Alt.marker w1 n w2 s hw1 hn hw2 hAlt2
      cases hm : matchMarker (tokenPat t)
          (w1 ++ n ++ w2 ++ cbrace :: cbrace :: s) with
      | none =>
        have hnet : n ≠ t := by
          intro he
          subst he
          rw [matchMarker_at_marker n w1 w2 s hn hw1 hw2] at hm
          exact absurd hm (by simp)
        rw [scanRepl_nomatch _ _ b _ hm]
        obtain ⟨c2, rest2, hR, hc2ne⟩ :
            ∃ c2 rest2, w1 ++ n ++ w2 ++ cbrace :: cbrace :: s =
              c2 :: rest2 ∧ c2 ≠ obrace := by
          cases w1 with
          | nil =>
            obtain ⟨hne, hall, _, _⟩ := safeName_parts n hn
            cases n with
            | nil => exact absurd rfl hne
            | cons nc ns =>
              exact ⟨nc, ns ++ w2 ++ cbrace :: cbrace :: s, by simp,
                (safeNameChar_not nc (hall nc (by simp))).1⟩
          | cons wc wrest =>
            exact ⟨wc, wrest ++ n ++ w2 ++ cbrace :: cbrace :: s, by simp,
              (wsChar_not_brace wc (hw1 wc (by simp))).1⟩
        have hout : scanRepl (tokenPat t) v (b ++ [obrace])
            (obrace :: (w1 ++ n ++ w2 ++ cbrace :: cbrace :: s)) =
            obrace :: (w1 ++ n ++ w2 ++ cbrace :: cbrace ::
              scanRepl (tokenPat t) v
                (b ++ [obrace] ++ [obrace] ++ (w1 ++ n ++ w2 ++ [cbrace, cbrace]))
                s) := by
          rw [hR, scanRepl_obrace_other _ _ _ c2 rest2 hc2ne, ← hR]
          have hsplit : w1 ++ n ++ w2 ++ cbrace :: cbrace :: s =
              (w1 ++ n ++ w2 ++ [cbrace, cbrace]) ++ s := by simp
          rw [hsplit, scanRepl_copy_run _ _ _ _ _
            (marker_run_no_obrace w1 n w2 hw1 hw2 hn)]
          simp
        rw [hout]
        obtain ⟨ih1, ih2⟩ := ihN s (by simp at hlen; omega) hAlt2
          (b ++ [obrace] ++ [obrace] ++ (w1 ++ n ++ w2 ++ [cbrace, cbrace]))
        refine ⟨Alt.marker w1 n w2 _ hw1 hn hw2 ih1, fun x hx => ?_⟩
        rw [extractScan_marker w1 n w2 _ hw1 hw2 hn] at hx
        rw [extractScan_marker w1 n w2 s hw1 hw2 hn]
        rcases List.mem_cons.mp hx with h | h
        · subst h
          exact ⟨by simp, hnet⟩
        · obtain ⟨hx1, hx2⟩ := ih2 x h
          exact ⟨List.mem_cons_of_mem n hx1, hx2⟩
      | some nn =>
        rw [scanRepl_match _ _ b _ nn hm]
        obtain ⟨hvo, hvc, hvd⟩ := safeVal_parts v hval
        rw [expandRepl_literal _ _ _ v hvd]
        obtain ⟨A, tail, hRdecomp, hnlen, hdropeq⟩ :=
          matchMarker_decomp _ _ _ hm
        rw [hdropeq]
        have hT : obrace :: obrace ::
            (w1 ++ n ++ w2 ++ cbrace :: cbrace :: s) =
            (obrace :: obrace :: A) ++ cbrace :: cbrace :: tail := by
          rw [hRdecomp]
          simp
        obtain ⟨hAltTail, hsubTail⟩ := alt_ends_split _ hAltT _ tail hT
        have htlen : tail.length < N := by
          have h1 := congrArg List.length hRdecomp
          simp only [List.length_append, List.length_cons] at h1
          simp only [List.length_cons, List.length_append] at hlen
          omega
        obtain ⟨ih1, ih2⟩ := ihN tail htlen hAltTail
          (b ++ obrace :: obrace ::
            (w1 ++ n ++ w2 ++ cbrace :: cbrace :: s).take nn)
        refine ⟨alt_prepend v (fun c hc => ⟨hvo c hc, hvc c hc⟩) _ ih1,
          fun x hx => ?_⟩
        rw [extractScan_skip_run v _ hvo] at hx
        obtain ⟨hx1, hx2⟩ := ih2 x hx
        exact ⟨hsubTail x hx1, hx2⟩

/-- Membership is preserved by sorted insertion. -/
theorem mem_insertSorted (x y : Str) :
    ∀ l : List Str, (y ∈ insertSorted x l ↔ y = x ∨ y ∈ l) := by
  intro l
  induction l with
  | nil => simp [insertSorted]
  | cons z zs ih =>
    simp only [insertSorted]
    by_cases hle : strLe x z = true
    · rw [if_pos hle]
      simp
    · rw [if_neg hle]
      simp only [List.mem_cons, ih]
      tauto

/-- Membership is preserved by sorting. -/
theorem mem_sortStrs (y : Str) : ∀ l : List Str, (y ∈ sortStrs l ↔ y ∈ l) := by
  intro l
  induction l with
  | nil => simp [sortStrs]
  | cons z zs ih =>
    simp only [sortStrs, mem_insertSorted, ih, List.mem_cons]

/-- The extracted token list has the same members as the raw scan. -/
theorem mem_extractTokens (y : Str) (s : Str) :
    y ∈ extractTokens s ↔ y ∈ extractScan s := by
  unfold extractTokens
  rw [mem_sortStrs, List.mem_dedup]

/-- The successive replacement passes of the token loop, text only. -/
def foldPasses (cfg : JSValue) : List Str → Str → Str
  | [], x => x
  | t :: ts, x =>
    foldPasses cfg ts
      (scanRepl (tokenPat t) (jsToString (getNestedValue cfg t)) [] x)

/-- Running the passes of a list of safe resolvable tokens keeps the text
well-braced and leaves no marker of any processed token. -/
theorem foldPasses_inv (cfg : JSValue) :
    ∀ (ts : List Str) (T : Str), Alt T →
      (∀ t ∈ ts, safeName t = true ∧
        safeVal (jsToString (getNestedValue cfg t)) = true) →
      Alt (foldPasses cfg ts T) ∧
      (∀ x ∈ extractScan (foldPasses cfg ts T),
        x ∈ extractScan T ∧ x ∉ ts) := by
  intro ts
  induction ts with
  | nil =>
    intro T hAlt _
    exact ⟨hAlt, fun x hx => ⟨hx, by simp⟩⟩
  | cons t ts ih =>
    intro T hAlt hsafe
    obtain ⟨h1, h2⟩ := pass_theorem t (jsToString (getNestedValue cfg t))
      (hsafe t (by simp)).1 (hsafe t (by simp)).2 (T.length + 1) T
      (Nat.lt_succ_self _) hAlt []
    obtain ⟨h3, h4⟩ := ih _ h1
      (fun u hu => hsafe u (List.mem_cons_of_mem _ hu))
    refine ⟨h3, fun x hx => ?_⟩
    obtain ⟨hx1, hx2⟩ := h4 x hx
    obtain ⟨hx3, hx4⟩ := h2 x hx1
    refine ⟨hx3, ?_⟩
    intro hmem
    rcases List.mem_cons.mp hmem with h | h
    · exact hx4 h
    · exact hx2 h

/-- When every token resolves, the token loop's text is exactly the
sequence of replacement passes. -/
theorem replaceCore_allfound_text (cfg : JSValue) (policy : ErrorPolicy)
    (ph : Str) :
    ∀ (ts : List Str) (x : Str),
      (∀ t ∈ ts, isMissingValue (getNestedValue cfg t) = false) →
      (replaceCore cfg policy ph ts x).text = foldPasses cfg ts x := by
  intro ts
  induction ts with
  | nil => intro x _; rfl
  | cons t ts ih =>
    intro x hall
    simp only [replaceCore, hall t (by simp), Bool.false_eq_true, if_false,
      foldPasses]
    exact ih _ (fun u hu => hall u (List.mem_cons_of_mem _ hu))

/-- C7 (amended): for a well-braced template text whose extracted tokens
all resolve to non-missing values with replacement-safe string forms
(no `{`, `}` or `$`), `replaceTokens` succeeds with no warnings and
re-extraction of the result finds none of the original tokens. -/
theorem c7_roundtrip_amended (T : Str) (cfg : JSValue)
    (policy : ErrorPolicy) (ph : Str) (halt : Alt T)
    (hvals : ∀ t ∈ extractTokens T,
      isMissingValue (getNestedValue cfg t) = false ∧
      safeVal (jsToString (getNestedValue cfg t)) = true) :
    replaceTokens T cfg none policy ph =
      .ok ((replaceCore cfg policy ph (extractTokens T) T).text, []) ∧
    ∀ t ∈ extractTokens T,
      t ∉ extractTokens
        ((replaceCore cfg policy ph (extractTokens T) T).text) := by
  have hsafeN : ∀ t ∈ extractTokens T, safeName t = true := fun t ht =>
    alt_names_safe T halt t ((mem_extractTokens t T).mp ht)
  have hw : (replaceCore cfg policy ph (extractTokens T) T).warnings = [] := by
    rw [replaceCore_warnings]
    have hfil : (extractTokens T).filter
        (fun t => isMissingValue (getNestedValue cfg t)) = [] := by
      rw [List.filter_eq_nil]
      intro t ht
      simp [(hvals t ht).1]
    rw [hfil]
    rfl
  constructor
  · simp only [replaceTokens, Option.getD_none]
    rw [if_neg (by rw [hw]; simp), hw]
  · have htext : (replaceCore cfg policy ph (extractTokens T) T).text =
        foldPasses cfg (extractTokens T) T :=
      replaceCore_allfound_text cfg policy ph (extractTokens T) T
        (fun t ht => (hvals t ht).1)
    rw [htext]
    obtain ⟨_, hsub⟩ := foldPasses_inv cfg (extractTokens T) T halt
      (fun t ht => ⟨hsafeN t ht, (hvals t ht).2⟩)
    intro t ht htIn
    have h2 := hsub t ((mem_extractTokens t _).mp htIn)
    exact h2.2 ht

/-- C7 counterexample: a resolved value containing `$` (here the
replacement pattern `$&`) reinstates the marker, so re-extraction still
finds the token. -/
theorem c7_counterexample :
    isMissingValue (getNestedValue
      (JSValue.obj [(toChars "name", JSValue.str (toChars "$&"))])
      (toChars "name")) = false ∧
    replaceTokens (toChars "Hi \x7b\x7bname\x7d\x7d")
      (JSValue.obj [(toChars "name", JSValue.str (toChars "$&"))]) none .warn =
      .ok (toChars "Hi \x7b\x7bname\x7d\x7d", []) ∧
    toChars "name" ∈ extractTokens (toChars "Hi \x7b\x7bname\x7d\x7d") := by
  refine ⟨by decide, ?_, by decide⟩
  have hw : (replaceCore (JSValue.obj [(toChars "name", JSValue.str (toChars "$&"))])
      ErrorPolicy.warn (toChars "[MISSING]") [toChars "name"]
      (toChars "Hi \x7b\x7bname\x7d\x7d")).warnings = [] := by
    rw [replaceCore_warnings]
    decide
  have htxt : (replaceCore (JSValue.obj [(toChars "name", JSValue.str (toChars "$&"))])
      ErrorPolicy.warn (toChars "[MISSING]") [toChars "name"]
      (toChars "Hi \x7b\x7bname\x7d\x7d")).text = toChars "Hi \x7b\x7bname\x7d\x7d" := by
    rw [replaceCore_allfound_text _ _ _ _ _ (by decide)]
    rw [foldPasses]
    rw [show getNestedValue (JSValue.obj [(toChars "name", JSValue.str (toChars "$&"))])
      (toChars "name") = JSValue.str (toChars "$&") from rfl, jsToString_str]
    rw [foldPasses]
    decide
  simp only [replaceTokens, Option.getD_none,
    show extractTokens (toChars "Hi \x7b\x7bname\x7d\x7d") = [toChars "name"] from by decide]
  rw [hw, htxt]
  simp

/-- C7 witness: the amended round trip applied to `Hi (name)` with
`name = Bob`. -/
theorem c7_roundtrip_amended_witness :
    (∀ t ∈ extractTokens (toChars "Hi \x7b\x7bname\x7d\x7d"),
      isMissingValue (getNestedValue
        (JSValue.obj [(toChars "name", JSValue.str (toChars "Bob"))]) t) = false ∧
      safeVal (jsToString (getNestedValue
        (JSValue.obj [(toChars "name", JSValue.str (toChars "Bob"))]) t)) = true) ∧
    (∀ t ∈ extractTokens (toChars "Hi \x7b\x7bname\x7d\x7d"),
      t ∉ extractTokens
        ((replaceCore (JSValue.obj [(toChars "name", JSValue.str (toChars "Bob"))])
          ErrorPolicy.warn (toChars "[MISSING]")
          (extractTokens (toChars "Hi \x7b\x7bname\x7d\x7d"))
          (toChars "Hi \x7b\x7bname\x7d\x7d")).text)) := by
  have hv : ∀ t ∈ extractTokens (toChars "Hi \x7b\x7bname\x7d\x7d"),
      isMissingValue (getNestedValue
        (JSValue.obj [(toChars "name", JSValue.str (toChars "Bob"))]) t) = false ∧
      safeVal (jsToString (getNestedValue
        (JSValue.obj [(toChars "name", JSValue.str (toChars "Bob"))]) t)) = true := by
    intro t ht
    rw [show extractTokens (toChars "Hi \x7b\x7bname\x7d\x7d") = [toChars "name"]
      from by decide] at ht
    have ht2 : t = toChars "name" := by simpa using ht
    subst ht2
    refine ⟨by decide, ?_⟩
    rw [show getNestedValue
      (JSValue.obj [(toChars "name", JSValue.str (toChars "Bob"))])
      (toChars "name") = JSValue.str (toChars "Bob") from rfl, jsToString_str]
    decide
  have halt : Alt (toChars "Hi \x7b\x7bname\x7d\x7d") := by
    rw [show toChars "Hi \x7b\x7bname\x7d\x7d" =
      'H' :: 'i' :: ' ' :: (obrace :: obrace ::
        ([] ++ toChars "name" ++ [] ++ cbrace :: cbrace :: [])) from by decide]
    refine Alt.ch 'H' _ (by decide) (by decide) ?_
    refine Alt.ch 'i' _ (by decide) (by decide) ?_
    refine Alt.ch ' ' _ (by decide) (by decide) ?_
    exact Alt.marker [] (toChars "name") [] [] (by simp) (by decide)
      (by simp) Alt.nil
  exact ⟨hv,
    (c7_roundtrip_amended (toChars "Hi \x7b\x7bname\x7d\x7d")
      (JSValue.obj [(toChars "name", JSValue.str (toChars "Bob"))])
      ErrorPolicy.warn (toChars "[MISSING]") halt hv).2⟩

end Brillnt
